import Mathlib

/-!
Verification of the core algorithms of the rag-mosdac repository against a
shallow embedding in Lean 4.

The embedding covers:
* the entity / relation normalization helpers of `src/modules/kg_builder.py`
  (`normalize_name`, `normalize_relation`) at the level of character lists,
  where each Python `re.sub` call is rendered as an explicit list transformer;
* the in-memory merge loop of `build_knowledge_graph` (entity and relationship
  de-duplication);
* the chunk construction and id assignment of
  `src/modules/vector_db_builder.py` together with the id-keyed upsert
  semantics of the vector store;
* the retrieval-answering pipeline `RAGPipeline.answer_question` of
  `src/modules/qa_app.py`, with the embedding model, the vector index and the
  LLM rendered as explicit collaborator functions, so that the number of
  collaborator invocations on each executed path is part of the result;
* the multi-source BFS subgraph expansion `find_connected_subgraph` of
  `streamlit_app.py`, including its adjacency construction, FIFO queue and
  depth bookkeeping.

Python strings are modelled as Lean `String` / `List Char`; character classes
are stated on ASCII codes (`Char.toNat`).  Machine floats never enter any
verified computation path: similarity scores are carried opaquely and are
modelled as rationals.
-/

/-! ## Character-level helpers for the normalization functions -/

/-- Characters treated as whitespace by Python `str.strip` and by the
regex class `\s` (space, tab, newline, carriage return, vertical tab,
form feed), identified by ASCII code. -/
def isPySpace (c : Char) : Bool :=
  c.toNat == 32 || c.toNat == 9 || c.toNat == 10 ||
  c.toNat == 13 || c.toNat == 11 || c.toNat == 12

/-- Python `str.strip`: drop leading and trailing whitespace. -/
def pyStrip (l : List Char) : List Char :=
  ((l.dropWhile isPySpace).reverse.dropWhile isPySpace).reverse

/-- ASCII lowercasing of one character, the fragment of Python `str.lower`
relevant here: codes 65..90 are shifted by 32, all else kept. -/
def lowerChar (c : Char) : Char :=
  if 65 ≤ c.toNat ∧ c.toNat ≤ 90 then Char.ofNat (c.toNat + 32) else c

/-- Python `str.lower` on a character list (ASCII fragment). -/
def pyLower (l : List Char) : List Char := l.map lowerChar

/-- Helper of `collapseRuns`: scan the list left to right; `inRun` records
whether the previous character belonged to a run of class characters.
The first character of each run is replaced by `r`, the rest of the run
is dropped. -/
def collapseAux (p : Char → Bool) (r : Char) : Bool → List Char → List Char
  | _, [] => []
  | inRun, c :: cs =>
    if p c then
      if inRun then collapseAux p r true cs
      else r :: collapseAux p r true cs
    else c :: collapseAux p r false cs

/-- `re.sub(cls+, repl, _)`: replace every maximal run of characters
satisfying `p` by the single character `r`. -/
def collapseRuns (p : Char → Bool) (r : Char) (l : List Char) : List Char :=
  collapseAux p r false l

/-- Python `str.strip(c)`: drop leading and trailing copies of `c`. -/
def stripChar (c : Char) (l : List Char) : List Char :=
  ((l.dropWhile (· == c)).reverse.dropWhile (· == c)).reverse

/-- The separator class `[-\s\.\/\\]` of `normalize_name`
(hyphen 45, dot 46, slash 47, backslash 92, and whitespace). -/
def nameSep (c : Char) : Bool :=
  isPySpace c || c.toNat == 45 || c.toNat == 46 || c.toNat == 47 || c.toNat == 92

/-- The character class `[a-z0-9_]` kept by `normalize_name`
(codes 97..122, 48..57, and underscore 95). -/
def nameOk (c : Char) : Bool :=
  (97 ≤ c.toNat && c.toNat ≤ 122) || (48 ≤ c.toNat && c.toNat ≤ 57) || c.toNat == 95

/-- The separator class `[-\s]` of `normalize_relation`
(hyphen 45 and whitespace). -/
def relSep (c : Char) : Bool :=
  isPySpace c || c.toNat == 45

/-- Underscore, code 95. -/
def isUnderscore (c : Char) : Bool := c.toNat == 95

/-! ## kg_builder.py: normalization functions -/

/-- `normalize_name` of `src/modules/kg_builder.py`: empty guard, strip,
lowercase, collapse separator runs to `_`, drop characters outside
`[a-z0-9_]`, collapse underscore runs, strip underscores. -/
def normalize_name (s : String) : String :=
  if s = "" then ""
  else
    let t := pyStrip s.data
    let t := pyLower t
    let t := collapseRuns nameSep '_' t
    let t := t.filter nameOk
    let t := collapseRuns isUnderscore '_' t
    let t := stripChar '_' t
    String.mk t

/-- The verb-canonicalization table of `normalize_relation`.  The Python
dict literal lists the key `creates` twice (once mapping to `develops`,
once to `generates`); dict construction keeps the final binding
`generates`, so the table here carries a single `creates` entry. -/
def relTable : List (String × String) :=
  [("operates", "operates"), ("runs", "operates"), ("manages", "operates"),
   ("launches", "launches"), ("deployed", "launches"),
   ("carries", "carries"), ("hosts", "carries"), ("contains", "carries"),
   ("measures", "measures"), ("observes", "measures"), ("detects", "measures"),
   ("monitors", "measures"),
   ("provides", "provides"), ("supplies", "provides"), ("offers", "provides"),
   ("processes", "processes"), ("analyzes", "processes"), ("handles", "processes"),
   ("archives", "archives"), ("stores", "archives"), ("maintains", "archives"),
   ("distributes", "distributes"), ("disseminates", "distributes"),
   ("shares", "distributes"),
   ("supports", "supports"), ("enables", "supports"), ("facilitates", "supports"),
   ("develops", "develops"), ("builds", "develops"),
   ("collects", "collects"), ("gathers", "collects"), ("acquires", "collects"),
   ("transmits", "transmits"), ("sends", "transmits"), ("broadcasts", "transmits"),
   ("generates", "generates"), ("produces", "generates"), ("creates", "generates"),
   ("validates", "validates"), ("verifies", "validates"),
   ("calibrates", "calibrates")]

/-- `normalize_relation` of `src/modules/kg_builder.py`: empty guard returns
`relates_to`; otherwise strip, lowercase, replace `[-\s]+` runs by `_`,
then look the result up in the table, defaulting to the processed text. -/
def normalize_relation (s : String) : String :=
  if s = "" then "relates_to"
  else
    let t := collapseRuns relSep '_' (pyLower (pyStrip s.data))
    let u := String.mk t
    (relTable.lookup u).getD u

/-! ## kg_builder.py: knowledge graph merge (build_knowledge_graph) -/

/-- An entity record `{name, type}` as produced by LLM extraction after
normalization (kg_builder.Entity). -/
structure KGEntity where
  name : String
  type : String
deriving DecidableEq, Repr

/-- A relationship record `{source, target, relation}` after normalization
(kg_builder.Relationship). -/
structure KGRel where
  source : String
  target : String
  relation : String
deriving DecidableEq, Repr

/-- The de-duplication key of a relationship. -/
def relKey (r : KGRel) : String × String × String :=
  (r.source, r.target, r.relation)

/-- A knowledge graph: ordered entities and relationships
(kg_builder.KnowledgeGraph). -/
structure KG where
  entities : List KGEntity
  relationships : List KGRel
deriving DecidableEq, Repr

/-- The entity half of the per-file merge loop of `build_knowledge_graph`:
append each batch entity whose name is nonempty and not yet present. -/
def mergeEntities (cur : List KGEntity) : List KGEntity → List KGEntity
  | [] => cur
  | e :: rest =>
    if e.name ≠ "" ∧ e.name ∉ cur.map KGEntity.name then
      mergeEntities (cur ++ [e]) rest
    else
      mergeEntities cur rest

/-- The relationship half of the per-file merge loop of
`build_knowledge_graph`: append each batch relationship with nonempty
source and target whose `(source, target, relation)` triple is new. -/
def mergeRels (cur : List KGRel) : List KGRel → List KGRel
  | [] => cur
  | r :: rest =>
    if r.source ≠ "" ∧ r.target ≠ "" ∧ relKey r ∉ cur.map relKey then
      mergeRels (cur ++ [r]) rest
    else
      mergeRels cur rest

/-- One iteration of the per-file loop of `build_knowledge_graph`: batches
with neither entities nor relationships are skipped, any other batch is
merged into the accumulated graph with de-duplication. -/
def mergeKG (kg : KG) (part : KG) : KG :=
  if part.entities = [] ∧ part.relationships = [] then kg
  else
    { entities := mergeEntities kg.entities part.entities,
      relationships := mergeRels kg.relationships part.relationships }

/-- The in-memory accumulation core of `build_knowledge_graph` of
`src/modules/kg_builder.py`: starting from the empty graph, merge the
extraction batch of every processed document in order. -/
def build_knowledge_graph (parts : List KG) : KG :=
  parts.foldl mergeKG ⟨[], []⟩

/-! ## vector_db_builder.py: chunking and chunk ids -/

/-- Configured maximum chunk length (vector_db_builder, chunk_size). -/
def chunk_size : Nat := 1000

/-- Configured chunk overlap (vector_db_builder, chunk_overlap). -/
def chunk_overlap : Nat := 100

/-- Modelled from the spec: the splitting algorithm itself is
langchain RecursiveCharacterTextSplitter, which is an external library and
not part of this repository.  Following section 3 and section 4.1 of the
spec, a document is split into overlapping fixed-size windows: each window
holds at most `size` characters and consecutive windows overlap by
`overlap` characters, so each new window starts `size - overlap`
characters after the previous one; empty text yields zero chunks.
The `fuel` argument bounds the recursion and is always called with at
least the text length plus one, which fully unfolds the loop. -/
def windowsAux (size step : Nat) : Nat → List Char → List (List Char)
  | 0, _ => []
  | fuel + 1, l =>
    if l = [] then []
    else if l.length ≤ size then [l]
    else l.take size :: windowsAux size step fuel (l.drop step)

/-- Modelled from the spec: `split_text` of the configured text splitter,
fixed-size overlapping windows of `chunk_size` characters advancing by
`chunk_size - chunk_overlap`. -/
def split_text (text : String) : List String :=
  (windowsAux chunk_size (chunk_size - chunk_overlap)
    (text.data.length + 1) text.data).map String.mk

/-- A source document as read by `build_vector_database`. -/
structure Doc where
  source : String
  content : String
deriving DecidableEq, Repr

/-- A chunk record `{source, id, text}` as assembled by
`build_vector_database`. -/
structure Chunk where
  source : String
  id : String
  text : String
deriving DecidableEq, Repr

/-- `os.path.basename`: the part of a path after the last slash. -/
def basename (s : String) : String :=
  String.mk ((s.data.reverse.takeWhile (fun c => c.toNat ≠ 47)).reverse)

/-- The inner loop of `build_vector_database`: enumerate the chunks of one
document, assigning id `basename(source) ++ "_" ++ index`. -/
def mkChunks (src : String) (i : Nat) : List String → List Chunk
  | [] => []
  | t :: ts =>
    ⟨src, basename src ++ "_" ++ toString i, t⟩ :: mkChunks src (i + 1) ts

/-- The chunk-assembly loop of `build_vector_database` of
`src/modules/vector_db_builder.py`, parameterized by the text splitter
(the splitter is the external langchain collaborator). -/
def buildChunks (split : String → List String) : List Doc → List Chunk
  | [] => []
  | d :: ds => mkChunks d.source 0 (split d.content) ++ buildChunks split ds

/-- Modelled from the spec: the vector store upsert keyed on the chunk id
(section 4.3: upserting the same id twice replaces the prior record rather
than duplicating).  The store is an association list from id to chunk. -/
def upsertChunk (store : List (String × Chunk)) (c : Chunk) : List (String × Chunk) :=
  if c.id ∈ store.map Prod.fst then
    store.map (fun kv => if kv.1 = c.id then (c.id, c) else kv)
  else
    store ++ [(c.id, c)]

/-- Modelled from the spec: upsert a list of chunks, in order, into an
initially empty store. -/
def upsertAll (chunks : List Chunk) : List (String × Chunk) :=
  chunks.foldl upsertChunk []

/-! ## qa_app.py: retrieval-answering pipeline -/

/-- The metadata carried by one retrieved match: the optional `text` and
`source` fields used by `answer_question`. -/
structure MatchMeta where
  text : Option String
  source : Option String
deriving DecidableEq, Repr

/-- One match returned by the vector-index query.  The similarity score is
carried opaquely as a rational; `answer_question` never computes with it. -/
structure MatchRec where
  score : Option ℚ
  metadata : Option MatchMeta
deriving DecidableEq, Repr

/-- `metadata.get('text', '')` after `match.get('metadata', {})`. -/
def matchText (m : MatchRec) : String :=
  ((m.metadata.getD ⟨none, none⟩).text).getD ""

/-- `metadata.get('source', 'Document')`. -/
def matchSource (m : MatchRec) : String :=
  ((m.metadata.getD ⟨none, none⟩).source).getD "Document"

/-- `match.get('score', 0.0)`. -/
def matchScore (m : MatchRec) : ℚ :=
  m.score.getD 0

/-- The external collaborators of `RAGPipeline.answer_question`: the
embedding model, the vector-index query and the LLM completion call.
Each is a function returning either a value or the message of a raised
exception. -/
structure QAEnv where
  embed : String → Except String (List ℚ)
  queryIndex : List ℚ → Nat → Except String (List MatchRec)
  llm : String → Except String String
deriving Inhabited

/-- The value returned by `answer_question`: either a bare string (the two
short-circuit messages and the exception handler) or the structured
record `{answer, sources, confidence_scores, context_used}`. -/
inductive AnswerResult where
  | plain (s : String)
  | structured (answer : String) (sources : List String)
      (confidence_scores : List ℚ) (context_used : Nat)
deriving DecidableEq, Repr

/-- Whether an `AnswerResult` is a bare string. -/
def AnswerResult.isPlainStr : AnswerResult → Bool
  | .plain _ => true
  | .structured _ _ _ _ => false

/-- The fixed message returned when the query yields zero matches. -/
def noInfoMsg : String :=
  "I couldn\x27t find any relevant information to answer your question."

/-- The fixed message returned when every match has empty text. -/
def noContentMsg : String :=
  "I couldn\x27t find any relevant content to answer your question."

/-- The prefix of the message built by the exception handler of
`answer_question`. -/
def errMsgPrefix : String :=
  "I encountered an error while processing your question: "

/-- `[Source: s]` label prepended to each context part. -/
def ctxPart (source text : String) : String :=
  "[Source: " ++ source ++ "]\n" ++ text

/-- The loop of `answer_question` that filters matches with nonempty text,
accumulating context parts, sources and confidence scores in order. -/
def processMatches : List MatchRec → List String × List String × List ℚ
  | [] => ([], [], [])
  | m :: ms =>
    let rest := processMatches ms
    if matchText m ≠ "" then
      (ctxPart (matchSource m) (matchText m) :: rest.1,
       matchSource m :: rest.2.1,
       matchScore m :: rest.2.2)
    else rest

/-- The prompt assembled by `answer_question` from the joined context and
the original query. -/
def buildPrompt (context query : String) : String :=
  "You are a helpful assistant specializing in MOSDAC (Meteorological & Oceanographic Satellite Data Archival Centre) information. \n\nBased on the context provided from the MOSDAC website, answer the user\x27s question accurately and comprehensively. If the answer isn\x27t fully covered in the context, acknowledge this and provide what information is available.\n\nCONTEXT:\n"
  ++ context ++ "\n\nQUESTION: " ++ query ++ "\n\nANSWER:"

/-- The outcome of one `answer_question` run: the returned value together
with the number of invocations of each external collaborator on the
executed path. -/
structure QARun where
  result : AnswerResult
  queryCalls : Nat
  llmCalls : Nat
deriving DecidableEq, Repr

/-- `RAGPipeline.answer_question` of `src/modules/qa_app.py`.  The whole
body runs under a `try`/`except` whose handler turns any raised exception
into the bare string `errMsgPrefix ++ message`; the zero-match and
empty-context short circuits return their fixed messages before the LLM
is invoked; otherwise the LLM answer is wrapped in the structured record. -/
def answer_question (env : QAEnv) (query : String) (n_results : Nat) : QARun :=
  match env.embed query with
  | .error e => ⟨.plain (errMsgPrefix ++ e), 0, 0⟩
  | .ok emb =>
    match env.queryIndex emb n_results with
    | .error e => ⟨.plain (errMsgPrefix ++ e), 1, 0⟩
    | .ok ms =>
      if ms = [] then ⟨.plain noInfoMsg, 1, 0⟩
      else
        let parts := processMatches ms
        if parts.1 = [] then ⟨.plain noContentMsg, 1, 0⟩
        else
          let context := String.intercalate "\n\n---\n\n" parts.1
          match env.llm (buildPrompt context query) with
          | .error e => ⟨.plain (errMsgPrefix ++ e), 1, 1⟩
          | .ok answer => ⟨.structured answer parts.2.1 parts.2.2 parts.1.length, 1, 1⟩

/-! ## streamlit_app.py: BFS subgraph expansion -/

/-- The names of an entity collection, in order. -/
def entityNames (es : List KGEntity) : List String := es.map KGEntity.name

/-- The adjacency dictionary after the key-initialization loop of
`find_connected_subgraph`: every entity name maps to an empty neighbor
list, any other string is absent. -/
def emptyAdj (es : List KGEntity) : String → Option (List String) :=
  fun n => if n ∈ entityNames es then some [] else none

/-- `adjacency[u].append(w)`: append `w` to the neighbor list of the key
`u`, leaving every other key untouched (and absent keys absent). -/
def addNbr (adj : String → Option (List String)) (u w : String) :
    String → Option (List String) :=
  fun n => if n = u then (adj n).map (fun l => l ++ [w]) else adj n

/-- The edge-insertion loop of `find_connected_subgraph`: a relationship
whose source and target are both present keys contributes both directions
of an undirected edge, all other relationships are dropped. -/
def insertRels (adj : String → Option (List String)) :
    List KGRel → (String → Option (List String))
  | [] => adj
  | r :: rest =>
    insertRels
      (if (adj r.source).isSome ∧ (adj r.target).isSome then
        addNbr (addNbr adj r.source r.target) r.target r.source
      else adj) rest

/-- The full adjacency structure built by `find_connected_subgraph`. -/
def buildAdj (es : List KGEntity) (rels : List KGRel) :
    String → Option (List String) :=
  insertRels (emptyAdj es) rels

/-- `adjacency.get(u, [])`. -/
def adjGet (adj : String → Option (List String)) (u : String) : List String :=
  (adj u).getD []

/-- The ephemeral BFS traversal state of `find_connected_subgraph`: the
visited set, the depth dictionary (its keys are exactly the visited
names, in insertion order) and the FIFO frontier queue. -/
structure BfsState where
  visited : List String
  depths : List (String × Nat)
  queue : List (String × Nat)
deriving DecidableEq, Repr

/-- The neighbor loop of one BFS iteration (and identically the seed
initialization loop): each not-yet-visited name is marked visited,
recorded at depth `d` and appended to the queue. -/
def bfsPush (d : Nat) (st : BfsState) : List String → BfsState
  | [] => st
  | w :: ws =>
    if w ∈ st.visited then bfsPush d st ws
    else bfsPush d ⟨st.visited ++ [w], st.depths ++ [(w, d)], st.queue ++ [(w, d)]⟩ ws

/-- One iteration of the BFS `while queue` loop: pop the front pair;
a node already at `max_depth` is not expanded, any other node pushes its
unvisited neighbors at depth one greater. -/
def bfsStep (adj : String → Option (List String)) (maxd : Nat)
    (st : BfsState) : BfsState :=
  match st.queue with
  | [] => st
  | (v, k) :: rest =>
    if maxd ≤ k then ⟨st.visited, st.depths, rest⟩
    else bfsPush (k + 1) ⟨st.visited, st.depths, rest⟩ (adjGet adj v)

/-- The BFS `while queue` loop, with explicit fuel.  Every call site
passes fuel at least the initial queue length plus the number of entity
records, which is enough to drain the queue. -/
def bfsRun (adj : String → Option (List String)) (maxd : Nat) :
    Nat → BfsState → BfsState
  | 0, st => st
  | fuel + 1, st =>
    match st.queue with
    | [] => st
    | _ :: _ => bfsRun adj maxd fuel (bfsStep adj maxd st)

/-- The seed-initialization loop of `find_connected_subgraph`: every seed
name not yet visited enters the visited set, the depth dictionary and the
queue at depth 0. -/
def initState (seeds : List String) : BfsState :=
  bfsPush 0 ⟨[], [], []⟩ seeds

/-- The dictionary returned by `find_connected_subgraph`. -/
structure SubgraphResult where
  entities : List KGEntity
  relationships : List KGRel
  depths : List (String × Nat)
  original_matches : List String
  expanded_count : Int
  max_depth_used : Nat
deriving DecidableEq, Repr

/-- `find_connected_subgraph` of `streamlit_app.py`: multi-source BFS over
the undirected graph induced by the relationships whose endpoints are both
entity names, depth-limited by `max_depth`; returns the visited entities,
the relationships with both endpoints visited, the depth dictionary, the
seed names, the count of non-seed nodes added and the maximum recorded
depth. -/
def find_connected_subgraph (matching all_es : List KGEntity)
    (all_rels : List KGRel) (max_depth : Nat) : SubgraphResult :=
  if matching = [] then ⟨[], [], [], [], 0, 0⟩
  else
    let adj := buildAdj all_es all_rels
    let st0 := initState (matching.map KGEntity.name)
    let stF := bfsRun adj max_depth (st0.queue.length + all_es.length) st0
    let connected := all_es.filter (fun e => decide (e.name ∈ stF.visited))
    { entities := connected,
      relationships := all_rels.filter
        (fun r => decide (r.source ∈ stF.visited) && decide (r.target ∈ stF.visited)),
      depths := stF.depths,
      original_matches := st0.visited,
      expanded_count := (connected.length : Int) - (matching.length : Int),
      max_depth_used := (stF.depths.map Prod.snd).foldl Nat.max 0 }

/-! ## Specification-side graph reachability -/

/-- The undirected edge relation of the spec: `u` and `w` are joined by a
relationship whose endpoints are both present in the entity collection. -/
def EdgeRel (es : List KGEntity) (rels : List KGRel) (u w : String) : Prop :=
  ∃ r ∈ rels, r.source ∈ entityNames es ∧ r.target ∈ entityNames es ∧
    ((r.source = u ∧ r.target = w) ∨ (r.target = u ∧ r.source = w))

/-- `reachBy es rels S n v`: `v` is within shortest-path distance `n` of
some seed in `S` in the undirected graph of `EdgeRel`. -/
def reachBy (es : List KGEntity) (rels : List KGRel) (S : List String) :
    Nat → String → Prop
  | 0, v => v ∈ S
  | n + 1, v =>
    reachBy es rels S n v ∨ ∃ u, reachBy es rels S n u ∧ EdgeRel es rels u v

/-- The minimal-distance predicate: `v` is reachable within `k` steps and
within no smaller bound. -/
def minDist (es : List KGEntity) (rels : List KGRel) (S : List String)
    (k : Nat) (v : String) : Prop :=
  reachBy es rels S k v ∧ ∀ j, reachBy es rels S j v → k ≤ j

/-- The BFS loop invariant of `find_connected_subgraph`, tying a traversal
state to the graph: the depth dictionary keys are the visited set; every
queued pair is recorded; every recorded pair is sound (reachable within
its depth, which never exceeds the bound); the queue is sorted by depth
with duplicate-free keys; all recorded depths stay within one of the
front depth; and every fully processed node below the bound has all its
neighbors recorded at most one level deeper. -/
structure BfsInv (es : List KGEntity) (rels : List KGRel) (S : List String)
    (maxd : Nat) (st : BfsState) : Prop where
  keys : st.depths.map Prod.fst = st.visited
  nodupV : st.visited.Nodup
  qmem : ∀ p ∈ st.queue, p ∈ st.depths
  sound : ∀ p ∈ st.depths, reachBy es rels S p.2 p.1 ∧ p.2 ≤ maxd
  qsorted : List.Pairwise (fun p q : String × Nat => p.2 ≤ q.2) st.queue
  qkeys : (st.queue.map Prod.fst).Nodup
  window : ∀ p ∈ st.depths, ∀ q, st.queue.head? = some q → p.2 ≤ q.2 + 1
  closure : ∀ p ∈ st.depths, (∀ j, (p.1, j) ∉ st.queue) → p.2 < maxd →
    ∀ w ∈ adjGet (buildAdj es rels) p.1, ∃ k, (w, k) ∈ st.depths ∧ k ≤ p.2 + 1

/-- The number of entity-name occurrences not yet visited, the decreasing
part of the BFS loop measure. -/
def unseenCount (names : List String) (st : BfsState) : Nat :=
  names.countP (fun n => decide (n ∉ st.visited))

/-! ## Lemmas: character classes -/

theorem nameOk_not_pySpace {c : Char} (h : nameOk c = true) : isPySpace c = false := by
  simp only [nameOk, Bool.or_eq_true, Bool.and_eq_true, decide_eq_true_eq,
    Nat.beq_eq_true_eq] at h
  simp only [isPySpace, Bool.or_eq_false_iff, beq_eq_false_iff_ne, ne_eq]
  omega

theorem nameOk_not_nameSep {c : Char} (h : nameOk c = true) : nameSep c = false := by
  have hs := nameOk_not_pySpace h
  simp only [nameOk, Bool.or_eq_true, Bool.and_eq_true, decide_eq_true_eq,
    Nat.beq_eq_true_eq] at h
  simp only [nameSep, hs, Bool.or_eq_false_iff, beq_eq_false_iff_ne, ne_eq,
    Bool.false_or]
  omega

theorem nameOk_lowerChar {c : Char} (h : nameOk c = true) : lowerChar c = c := by
  simp only [nameOk, Bool.or_eq_true, Bool.and_eq_true, decide_eq_true_eq,
    Nat.beq_eq_true_eq] at h
  unfold lowerChar
  rw [if_neg]
  omega

theorem isUnderscore_iff {c : Char} : isUnderscore c = true ↔ c = '_' := by
  simp only [isUnderscore, Nat.beq_eq_true_eq]
  constructor
  · intro h
    exact Char.ext (UInt32.ext h)
  · intro h; subst h; rfl

/-! ## Lemmas: list transformers -/

theorem dropWhile_eq_self_of_all {p : Char → Bool} {l : List Char}
    (h : ∀ c ∈ l, p c = false) : l.dropWhile p = l := by
  cases l with
  | nil => rfl
  | cons c cs => simp [List.dropWhile_cons, h c (by simp)]

theorem pyStrip_eq_self {l : List Char} (h : ∀ c ∈ l, isPySpace c = false) :
    pyStrip l = l := by
  unfold pyStrip
  rw [dropWhile_eq_self_of_all h, dropWhile_eq_self_of_all (by simpa using h),
    List.reverse_reverse]

theorem pyLower_eq_self {l : List Char} (h : ∀ c ∈ l, lowerChar c = c) :
    pyLower l = l := by
  unfold pyLower
  induction l with
  | nil => rfl
  | cons c cs ih =>
    simp only [List.map_cons, h c (by simp), List.cons.injEq, true_and]
    exact ih (fun x hx => h x (by simp [hx]))

theorem collapseAux_eq_self_of_all {p : Char → Bool} {r : Char} {l : List Char}
    (h : ∀ c ∈ l, p c = false) : collapseAux p r false l = l := by
  induction l with
  | nil => rfl
  | cons c cs ih =>
    rw [collapseAux, if_neg (by simp [h c (by simp)])]
    rw [ih (fun x hx => h x (by simp [hx]))]

theorem collapseRuns_eq_self_of_all {p : Char → Bool} {r : Char} {l : List Char}
    (h : ∀ c ∈ l, p c = false) : collapseRuns p r l = l :=
  collapseAux_eq_self_of_all h

theorem mem_collapseAux {p : Char → Bool} {r : Char} {l : List Char} {c : Char} :
    ∀ b, c ∈ collapseAux p r b l → c = r ∨ c ∈ l := by
  induction l with
  | nil => intro b h; simp [collapseAux] at h
  | cons d cs ih =>
    intro b h
    rw [collapseAux] at h
    by_cases hd : p d = true
    · rw [if_pos hd] at h
      cases b with
      | true =>
        rw [if_pos rfl] at h
        rcases ih true h with h | h
        · exact Or.inl h
        · exact Or.inr (List.mem_cons_of_mem d h)
      | false =>
        rw [if_neg (by simp)] at h
        rcases List.mem_cons.mp h with h | h
        · exact Or.inl h
        · rcases ih true h with h | h
          · exact Or.inl h
          · exact Or.inr (List.mem_cons_of_mem d h)
    · rw [if_neg hd] at h
      rcases List.mem_cons.mp h with h | h
      · exact Or.inr (by simp [h])
      · rcases ih false h with h | h
        · exact Or.inl h
        · exact Or.inr (List.mem_cons_of_mem d h)

theorem mem_collapseRuns {p : Char → Bool} {r : Char} {l : List Char} {c : Char}
    (h : c ∈ collapseRuns p r l) : c = r ∨ c ∈ l :=
  mem_collapseAux false h

theorem head_collapseAux_true_not {p : Char → Bool} {r : Char} {l : List Char}
    {d : Char} (h : (collapseAux p r true l).head? = some d) : p d = false := by
  induction l with
  | nil => simp [collapseAux] at h
  | cons c cs ih =>
    rw [collapseAux] at h
    by_cases hc : p c = true
    · rw [if_pos hc, if_pos rfl] at h
      exact ih h
    · rw [if_neg hc] at h
      simp only [List.head?_cons, Option.some.injEq] at h
      subst h
      exact Bool.not_eq_true _ ▸ hc

theorem head_dropWhile_not {p : Char → Bool} {l : List Char} {c : Char}
    (h : (l.dropWhile p).head? = some c) : p c = false := by
  induction l with
  | nil => simp at h
  | cons d ds ih =>
    rw [List.dropWhile_cons] at h
    by_cases hd : p d = true
    · rw [if_pos hd] at h; exact ih h
    · rw [if_neg hd] at h
      simp only [List.head?_cons, Option.some.injEq] at h
      subst h
      exact Bool.not_eq_true _ ▸ hd

theorem chain'_collapseAux {p : Char → Bool} {r : Char} (l : List Char) :
    ∀ b, List.Chain' (fun a c => ¬(p a = true ∧ p c = true)) (collapseAux p r b l) := by
  induction l with
  | nil => intro b; simp [collapseAux]
  | cons d cs ih =>
    intro b
    rw [collapseAux]
    by_cases hd : p d = true
    · rw [if_pos hd]
      cases b with
      | true => rw [if_pos rfl]; exact ih true
      | false =>
        rw [if_neg (by simp)]
        apply List.chain'_cons'.mpr
        refine ⟨?_, ih true⟩
        intro y hy hcon
        exact (by simp [head_collapseAux_true_not hy] : ¬ p y = true) hcon.2
    · rw [if_neg hd]
      apply List.chain'_cons'.mpr
      refine ⟨?_, ih false⟩
      intro y _ hcon
      exact (by simp [hd] : ¬ p d = true) hcon.1

theorem chain'_collapseRuns {p : Char → Bool} {r : Char} (l : List Char) :
    List.Chain' (fun a b => ¬(p a = true ∧ p b = true)) (collapseRuns p r l) :=
  chain'_collapseAux l false

theorem collapseAux_true_eq_false_of_head {p : Char → Bool} {r : Char}
    {l : List Char} (h : ∀ d, l.head? = some d → p d = false) :
    collapseAux p r true l = collapseAux p r false l := by
  cases l with
  | nil => rfl
  | cons c cs =>
    rw [collapseAux, collapseAux, if_neg (by simp [h c (by simp)]),
      if_neg (by simp [h c (by simp)])]

theorem collapseRuns_eq_self_of_chain {p : Char → Bool} {r : Char} {l : List Char}
    (hr : ∀ c, p c = true → c = r)
    (h : List.Chain' (fun a b => ¬(p a = true ∧ p b = true)) l) :
    collapseRuns p r l = l := by
  unfold collapseRuns
  induction l with
  | nil => rfl
  | cons c cs ih =>
    by_cases hc : p c = true
    · rw [collapseAux, if_pos hc, if_neg (by simp)]
      have hcs : collapseAux p r true cs = collapseAux p r false cs := by
        apply collapseAux_true_eq_false_of_head
        intro d hd
        cases cs with
        | nil => simp at hd
        | cons e es =>
          simp only [List.head?_cons, Option.some.injEq] at hd
          rw [← hd]
          have hcon : ¬(p c = true ∧ p e = true) := (List.chain'_cons.mp h).1
          cases hpd : p e
          · rfl
          · exact absurd ⟨hc, hpd⟩ hcon
      rw [hcs, hr c hc]
      congr 1
      exact ih (List.Chain'.tail h)
    · rw [collapseAux, if_neg hc]
      congr 1
      exact ih (List.Chain'.tail h)

theorem stripChar_within (u : Char) (l : List Char) : stripChar u l <:+: l := by
  unfold stripChar
  have h1 : l.dropWhile (· == u) <:+ l := List.dropWhile_suffix _
  have h2 : (l.dropWhile (· == u)).reverse.dropWhile (· == u) <:+
      (l.dropWhile (· == u)).reverse := List.dropWhile_suffix _
  have h3 := h2.reverse
  rw [List.reverse_reverse] at h3
  exact h3.isInfix.trans h1.isInfix

theorem stripChar_front (u : Char) (l : List Char) :
    stripChar u l <+: l.dropWhile (· == u) := by
  unfold stripChar
  have h2 : (l.dropWhile (· == u)).reverse.dropWhile (· == u) <:+
      (l.dropWhile (· == u)).reverse := List.dropWhile_suffix _
  have h3 := h2.reverse
  rwa [List.reverse_reverse] at h3

theorem stripChar_head_ne {u : Char} {l : List Char} {d : Char}
    (h : (stripChar u l).head? = some d) : (d == u) = false := by
  have hpre := stripChar_front u l
  rcases hpre with ⟨t, ht⟩
  have hh : (l.dropWhile (· == u)).head? = some d := by
    rw [← ht]
    cases hsc : stripChar u l with
    | nil => rw [hsc] at h; simp at h
    | cons a as =>
      rw [hsc] at h
      simp only [List.head?_cons, Option.some.injEq] at h
      simp [h]
  exact head_dropWhile_not (p := fun x => x == u) hh

theorem stripChar_getLast_ne {u : Char} {l : List Char} {d : Char}
    (h : (stripChar u l).getLast? = some d) : (d == u) = false := by
  unfold stripChar at h
  rw [List.getLast?_reverse] at h
  exact head_dropWhile_not (p := fun x => x == u) h

theorem stripChar_eq_self {u : Char} {l : List Char}
    (hh : ∀ d, l.head? = some d → (d == u) = false)
    (hl : ∀ d, l.getLast? = some d → (d == u) = false) :
    stripChar u l = l := by
  unfold stripChar
  have h1 : l.dropWhile (· == u) = l := by
    cases l with
    | nil => rfl
    | cons a as =>
      rw [List.dropWhile_cons, if_neg]
      simp [hh a (by simp)]
  rw [h1]
  have h2 : l.reverse.dropWhile (· == u) = l.reverse := by
    cases hr : l.reverse with
    | nil => rfl
    | cons a as =>
      rw [List.dropWhile_cons, if_neg]
      have : l.getLast? = some a := by
        rw [← List.head?_reverse, hr]; rfl
      simp [hl a this]
  rw [h2, List.reverse_reverse]

theorem string_mk_eq_empty_iff {t : List Char} : String.mk t = "" ↔ t = [] := by
  constructor
  · intro h
    have := congrArg String.data h
    simpa using this
  · intro h; subst h; rfl

/-- C8: entity name normalization is idempotent: for every string `x`,
`normalize_name (normalize_name x) = normalize_name x`. -/
theorem normalize_name_idempotent (s : String) :
    normalize_name (normalize_name s) = normalize_name s := by
  by_cases hs : s = ""
  · subst hs
    have h0 : normalize_name "" = "" := by rw [normalize_name]; simp
    rw [h0, h0]
  · have hdef : normalize_name s =
        String.mk (stripChar '_' (collapseRuns isUnderscore '_'
          ((collapseRuns nameSep '_' (pyLower (pyStrip s.data))).filter nameOk))) := by
      rw [normalize_name, if_neg hs]
    set x := (collapseRuns nameSep '_' (pyLower (pyStrip s.data))).filter nameOk with hx
    set t := stripChar '_' (collapseRuns isUnderscore '_' x) with htdef
    rw [hdef]
    by_cases ht : t = []
    · rw [ht]
      show normalize_name "" = String.mk []
      rw [normalize_name]; simp
    · have hxok : ∀ c ∈ x, nameOk c = true := by
        intro c hc
        exact List.of_mem_filter hc
      have hcok : ∀ c ∈ collapseRuns isUnderscore '_' x, nameOk c = true := by
        intro c hc
        rcases mem_collapseRuns hc with h | h
        · subst h; decide
        · exact hxok c h
      have htok : ∀ c ∈ t, nameOk c = true := by
        intro c hc
        exact hcok c ((stripChar_within '_' _).sublist.mem hc)
      have htchain : List.Chain'
          (fun a b => ¬(isUnderscore a = true ∧ isUnderscore b = true)) t :=
        List.Chain'.infix (chain'_collapseRuns x) (stripChar_within '_' _)
      have hne : String.mk t ≠ "" := fun h => ht (string_mk_eq_empty_iff.mp h)
      rw [normalize_name, if_neg hne]
      show String.mk (stripChar '_' (collapseRuns isUnderscore '_'
        ((collapseRuns nameSep '_' (pyLower (pyStrip (String.mk t).data))).filter
          nameOk))) = String.mk t
      have hdata : (String.mk t).data = t := rfl
      rw [hdata]
      rw [pyStrip_eq_self (fun c hc => nameOk_not_pySpace (htok c hc))]
      rw [pyLower_eq_self (fun c hc => nameOk_lowerChar (htok c hc))]
      rw [collapseRuns_eq_self_of_all (fun c hc => nameOk_not_nameSep (htok c hc))]
      rw [List.filter_eq_self.mpr htok]
      rw [collapseRuns_eq_self_of_chain (fun c hc => isUnderscore_iff.mp hc) htchain]
      rw [stripChar_eq_self
        (fun d hd => stripChar_head_ne (htdef ▸ hd))
        (fun d hd => stripChar_getLast_ne (htdef ▸ hd))]

/-! ## C5: normalize_relation -/

/-- C5 counterexample: the claim says `normalize_relation` returns
`relates_to` for a whitespace-only input, but the code only defaults on
the empty string: a single space passes the guard, strips to the empty
string, misses the table, and is returned as the empty string. -/
theorem normalize_relation_whitespace_cex :
    normalize_relation " " = "" ∧ normalize_relation " " ≠ "relates_to" := by
  constructor
  · rfl
  · decide

/-- C5 (amended): `normalize_relation` maps inputs through the verb table
(`runs`, in any casing and surrounding whitespace, maps to `operates`)
and returns `relates_to` exactly for the empty input; a nonempty
whitespace-only input normalizes to the empty string and is returned
unchanged, not defaulted. -/
theorem normalize_relation_amended :
    normalize_relation "" = "relates_to" ∧
    normalize_relation "runs" = "operates" ∧
    normalize_relation " Runs " = "operates" ∧
    (∀ s : String, s ≠ "" → (∀ c ∈ s.data, isPySpace c = true) →
      normalize_relation s = "") := by
  refine ⟨rfl, rfl, rfl, ?_⟩
  intro s hs hsp
  rw [normalize_relation, if_neg hs]
  have h1 : s.data.dropWhile isPySpace = [] :=
    List.dropWhile_eq_nil_iff.mpr (fun x hx => by simp [hsp x hx])
  have h2 : pyStrip s.data = [] := by
    unfold pyStrip
    rw [h1]
    rfl
  rw [h2]
  show (relTable.lookup (String.mk (collapseRuns relSep '_' (pyLower [])))).getD
    (String.mk (collapseRuns relSep '_' (pyLower []))) = ""
  have h3 : collapseRuns relSep '_' (pyLower []) = [] := rfl
  rw [h3]
  rfl

/-- C5 amended, witness instance: the whitespace-only input `" "` is
nonempty, all of its characters are whitespace, and it normalizes to the
empty string. -/
theorem normalize_relation_amended_witness :
    normalize_relation " " = "" := by
  have h := normalize_relation_amended
  exact h.2.2.2 " " (by decide) (by decide)

/-! ## C7: relationship de-duplication in build_knowledge_graph -/

theorem mergeRels_key_mono {cur batch : List KGRel} {t : String × String × String}
    (h : t ∈ cur.map relKey) : t ∈ (mergeRels cur batch).map relKey := by
  induction batch generalizing cur with
  | nil => exact h
  | cons r rest ih =>
    rw [mergeRels]
    by_cases hc : r.source ≠ "" ∧ r.target ≠ "" ∧ relKey r ∉ cur.map relKey
    · rw [if_pos hc]
      exact ih (by simp only [List.map_append]; exact List.mem_append_left _ h)
    · rw [if_neg hc]
      exact ih h

theorem mergeRels_key_new {cur batch : List KGRel} {r : KGRel}
    (hr : r ∈ batch) (hs : r.source ≠ "") (ht : r.target ≠ "") :
    relKey r ∈ (mergeRels cur batch).map relKey := by
  induction batch generalizing cur with
  | nil => simp at hr
  | cons q rest ih =>
    rw [mergeRels]
    rcases List.mem_cons.mp hr with hr | hr
    · subst hr
      by_cases hmem : relKey r ∈ cur.map relKey
      · by_cases hc : r.source ≠ "" ∧ r.target ≠ "" ∧ relKey r ∉ cur.map relKey
        · rw [if_pos hc]
          exact absurd hmem hc.2.2
        · rw [if_neg hc]
          exact mergeRels_key_mono hmem
      · rw [if_pos ⟨hs, ht, hmem⟩]
        exact mergeRels_key_mono (by simp)
    · by_cases hc : q.source ≠ "" ∧ q.target ≠ "" ∧ relKey q ∉ cur.map relKey
      · rw [if_pos hc]; exact ih hr
      · rw [if_neg hc]; exact ih hr

theorem mergeRels_nodup {cur batch : List KGRel}
    (h : (cur.map relKey).Nodup) : ((mergeRels cur batch).map relKey).Nodup := by
  induction batch generalizing cur with
  | nil => exact h
  | cons r rest ih =>
    rw [mergeRels]
    by_cases hc : r.source ≠ "" ∧ r.target ≠ "" ∧ relKey r ∉ cur.map relKey
    · rw [if_pos hc]
      apply ih
      rw [List.map_append]
      rw [List.nodup_append]
      refine ⟨h, by simp, ?_⟩
      intro a ha hb
      simp only [List.map_cons, List.map_nil, List.mem_singleton] at hb
      subst hb
      exact hc.2.2 ha
    · rw [if_neg hc]
      exact ih h

theorem build_kg_rel_nodup (parts : List KG) :
    (((build_knowledge_graph parts).relationships).map relKey).Nodup := by
  unfold build_knowledge_graph
  have h : ∀ kg : KG, (kg.relationships.map relKey).Nodup →
      ((parts.foldl mergeKG kg).relationships.map relKey).Nodup := by
    induction parts with
    | nil => intro kg h; exact h
    | cons part rest ih =>
      intro kg h
      rw [List.foldl_cons]
      apply ih
      unfold mergeKG
      by_cases hp : part.entities = [] ∧ part.relationships = []
      · rw [if_pos hp]; exact h
      · rw [if_neg hp]; exact mergeRels_nodup h
  exact h ⟨[], []⟩ (by simp)

theorem nodup_key_filter_length {l : List KGRel} {t : String × String × String}
    (hnd : (l.map relKey).Nodup) (hmem : t ∈ l.map relKey) :
    (l.filter (fun q => decide (relKey q = t))).length = 1 := by
  induction l with
  | nil => simp at hmem
  | cons q rest ih =>
    rw [List.map_cons, List.nodup_cons] at hnd
    by_cases hq : relKey q = t
    · rw [List.filter_cons_of_pos (by simp [hq])]
      have hrest : rest.filter (fun x => decide (relKey x = t)) = [] := by
        apply List.filter_eq_nil.mpr
        intro x hx
        simp only [decide_eq_true_eq]
        intro hxt
        exact hnd.1 (hq ▸ hxt ▸ List.mem_map_of_mem relKey hx)
      simp [hrest]
    · rw [List.filter_cons_of_neg (by simp [hq])]
      apply ih hnd.2
      rcases List.mem_map.mp hmem with ⟨x, hx, hxt⟩
      rcases List.mem_cons.mp hx with hx | hx
      · exact absurd (hx ▸ hxt) hq
      · exact hxt ▸ List.mem_map_of_mem relKey hx

/-- C7: the accumulated relationship list never contains two relationships
with the same (source, target, relation) triple; in particular a triple
with nonempty endpoints occurring in each of two merged batches occurs in
exactly one relationship instance of the merged graph. -/
theorem build_kg_rel_dedup (parts : List KG) (b1 b2 : KG) (r : KGRel)
    (h1 : r ∈ b1.relationships) (h2 : r ∈ b2.relationships)
    (hs : r.source ≠ "") (ht : r.target ≠ "") :
    (((build_knowledge_graph parts).relationships).map relKey).Nodup ∧
    ((build_knowledge_graph [b1, b2]).relationships.filter
      (fun q => decide (relKey q = relKey r))).length = 1 := by
  constructor
  · exact build_kg_rel_nodup parts
  · have hnodup := build_kg_rel_nodup [b1, b2]
    have hmem : relKey r ∈ (build_knowledge_graph [b1, b2]).relationships.map relKey := by
      unfold build_knowledge_graph
      rw [List.foldl_cons, List.foldl_cons, List.foldl_nil]
      unfold mergeKG
      by_cases hp2 : b2.entities = [] ∧ b2.relationships = []
      · exact absurd (hp2.2 ▸ h2) (List.not_mem_nil r)
      · rw [if_neg hp2]
        exact mergeRels_key_new h2 hs ht
    exact nodup_key_filter_length hnodup hmem

/-- C7 witness: merging two singleton batches holding the same triple
yields a graph with exactly one copy of that triple. -/
theorem build_kg_rel_dedup_witness :
    ((build_knowledge_graph
        [⟨[], [⟨"a", "b", "r"⟩]⟩, ⟨[], [⟨"a", "b", "r"⟩]⟩]).relationships.filter
      (fun q => decide (relKey q = relKey ⟨"a", "b", "r"⟩))).length = 1 :=
  (build_kg_rel_dedup [⟨[], [⟨"a", "b", "r"⟩]⟩, ⟨[], [⟨"a", "b", "r"⟩]⟩]
    ⟨[], [⟨"a", "b", "r"⟩]⟩ ⟨[], [⟨"a", "b", "r"⟩]⟩ ⟨"a", "b", "r"⟩
    (by simp) (by simp) (by decide) (by decide)).2

/-! ## C10: chunk ids and upsert collisions -/

theorem nodup_countP_eq_one {α : Type} [DecidableEq α] {l : List α} {t : α}
    (h : l.Nodup) (hm : t ∈ l) : l.countP (fun x => decide (x = t)) = 1 := by
  induction l with
  | nil => simp at hm
  | cons a rest ih =>
    rw [List.nodup_cons] at h
    by_cases ha : a = t
    · subst ha
      rw [List.countP_cons_of_pos _ _ (by simp)]
      have : rest.countP (fun x => decide (x = a)) = 0 := by
        apply List.countP_eq_zero.mpr
        intro x hx
        simp only [decide_eq_true_eq]
        intro hxa
        exact h.1 (hxa ▸ hx)
      simp [this]
    · rw [List.countP_cons_of_neg _ _ (by simp [ha])]
      have hm2 : t ∈ rest := by
        rcases List.mem_cons.mp hm with hm | hm
        · exact absurd hm.symm ha
        · exact hm
      exact ih h.2 hm2

theorem nodup_countP_le_one {α : Type} [DecidableEq α] {l : List α} (t : α)
    (h : l.Nodup) : l.countP (fun x => decide (x = t)) ≤ 1 := by
  by_cases hm : t ∈ l
  · exact le_of_eq (nodup_countP_eq_one h hm)
  · have : l.countP (fun x => decide (x = t)) = 0 := by
      apply List.countP_eq_zero.mpr
      intro x hx
      simp only [decide_eq_true_eq]
      intro hxt
      exact hm (hxt ▸ hx)
    simp [this]

theorem mkChunks_id_mem (src : String) (texts : List String) :
    ∀ i j, j < texts.length →
      ∃ c ∈ mkChunks src i texts, c.id = basename src ++ "_" ++ toString (i + j) := by
  induction texts with
  | nil => intro i j hj; simp at hj
  | cons t ts ih =>
    intro i j hj
    cases j with
    | zero =>
      exact ⟨⟨src, basename src ++ "_" ++ toString i, t⟩, by rw [mkChunks]; simp, by simp⟩
    | succ j =>
      rcases ih (i + 1) j (by simpa using Nat.lt_of_succ_lt_succ hj) with ⟨c, hc, hid⟩
      refine ⟨c, by rw [mkChunks]; exact List.mem_cons_of_mem _ hc, ?_⟩
      rw [hid]
      congr 2
      omega

theorem buildChunks_append (split : String → List String) (a b : List Doc) :
    buildChunks split (a ++ b) = buildChunks split a ++ buildChunks split b := by
  induction a with
  | nil => simp [buildChunks]
  | cons d ds ih => simp [buildChunks, ih]

theorem mem_buildChunks_of_mem {split : String → List String} {docs : List Doc}
    {d : Doc} {c : Chunk} (hd : d ∈ docs)
    (hc : c ∈ mkChunks d.source 0 (split d.content)) : c ∈ buildChunks split docs := by
  induction docs with
  | nil => simp at hd
  | cons e es ih =>
    rw [buildChunks]
    rcases List.mem_cons.mp hd with hd | hd
    · subst hd; exact List.mem_append_left _ hc
    · exact List.mem_append_right _ (ih hd)

theorem countP_buildChunks_ge_of_mem {split : String → List String}
    {docs : List Doc} {d : Doc} (p : Chunk → Bool) (hd : d ∈ docs) :
    (mkChunks d.source 0 (split d.content)).countP p ≤
      (buildChunks split docs).countP p := by
  induction docs with
  | nil => simp at hd
  | cons e es ih =>
    rw [buildChunks, List.countP_append]
    rcases List.mem_cons.mp hd with hd | hd
    · subst hd; exact Nat.le_add_right _ _
    · exact le_trans (ih hd) (Nat.le_add_left _ _)

theorem upsertChunk_keys (store : List (String × Chunk)) (c : Chunk) :
    (upsertChunk store c).map Prod.fst =
      if c.id ∈ store.map Prod.fst then store.map Prod.fst
      else store.map Prod.fst ++ [c.id] := by
  unfold upsertChunk
  by_cases h : c.id ∈ store.map Prod.fst
  · rw [if_pos h, if_pos h, List.map_map]
    apply List.map_congr_left
    intro kv _
    by_cases hk : kv.1 = c.id
    · simp [hk]
    · simp [hk]
  · rw [if_neg h, if_neg h, List.map_append]
    rfl

theorem upsertAll_fold_keys (chunks : List Chunk) :
    ∀ store : List (String × Chunk), (store.map Prod.fst).Nodup →
      ((chunks.foldl upsertChunk store).map Prod.fst).Nodup ∧
      (∀ k, k ∈ store.map Prod.fst → k ∈ (chunks.foldl upsertChunk store).map Prod.fst) ∧
      (∀ c ∈ chunks, c.id ∈ (chunks.foldl upsertChunk store).map Prod.fst) := by
  induction chunks with
  | nil => intro store h; exact ⟨h, fun k hk => hk, by simp⟩
  | cons c rest ih =>
    intro store h
    rw [List.foldl_cons]
    have hkeys := upsertChunk_keys store c
    have hnd : ((upsertChunk store c).map Prod.fst).Nodup := by
      rw [hkeys]
      by_cases hm : c.id ∈ store.map Prod.fst
      · rw [if_pos hm]; exact h
      · rw [if_neg hm]
        rw [List.nodup_append]
        refine ⟨h, by simp, ?_⟩
        intro a ha hb
        simp only [List.mem_singleton] at hb
        exact hm (hb ▸ ha)
    have hsub : ∀ k, k ∈ store.map Prod.fst → k ∈ (upsertChunk store c).map Prod.fst := by
      intro k hk
      rw [hkeys]
      by_cases hm : c.id ∈ store.map Prod.fst
      · rw [if_pos hm]; exact hk
      · rw [if_neg hm]; exact List.mem_append_left _ hk
    have hcid : c.id ∈ (upsertChunk store c).map Prod.fst := by
      rw [hkeys]
      by_cases hm : c.id ∈ store.map Prod.fst
      · rw [if_pos hm]; exact hm
      · rw [if_neg hm]; exact List.mem_append_right _ (by simp)
    rcases ih (upsertChunk store c) hnd with ⟨ih1, ih2, ih3⟩
    refine ⟨ih1, fun k hk => ih2 k (hsub k hk), ?_⟩
    intro d hd
    rcases List.mem_cons.mp hd with hd | hd
    · exact hd ▸ ih2 c.id hcid
    · exact ih3 d hd

/-- C10: the chunk id depends only on the basename of the source path and
the chunk index, so two documents with different paths but equal basenames
produce colliding ids: the chunk list carries the colliding id at least
twice (its id list is not duplicate-free), while the id-keyed upsert
retains exactly one record under that id. -/
theorem chunk_id_collision (split : String → List String) (docs : List Doc)
    (d1 d2 : Doc) (i : Nat) (h1 : d1 ∈ docs) (h2 : d2 ∈ docs)
    (hne : d1.source ≠ d2.source) (hb : basename d1.source = basename d2.source)
    (hi1 : i < (split d1.content).length) (hi2 : i < (split d2.content).length) :
    2 ≤ (buildChunks split docs).countP
        (fun c => decide (c.id = basename d1.source ++ "_" ++ toString i)) ∧
    ¬ ((buildChunks split docs).map Chunk.id).Nodup ∧
    ((upsertAll (buildChunks split docs)).map Prod.fst).countP
        (fun k => decide (k = basename d1.source ++ "_" ++ toString i)) = 1 := by
  set theId := basename d1.source ++ "_" ++ toString i with hthe
  have hblock : ∀ d : Doc, basename d.source = basename d1.source →
      i < (split d.content).length →
      1 ≤ (mkChunks d.source 0 (split d.content)).countP
          (fun c => decide (c.id = theId)) := by
    intro d hbd hid
    rcases mkChunks_id_mem d.source (split d.content) 0 i hid with ⟨c, hc, hcid⟩
    apply List.countP_pos.mpr
    exact ⟨c, hc, by simp [hcid, hbd, hthe]⟩
  have hcount2 : 2 ≤ (buildChunks split docs).countP
      (fun c => decide (c.id = theId)) := by
    rcases List.append_of_mem h1 with ⟨s, t, hst⟩
    subst hst
    have hd2 : d2 ∈ s ∨ d2 ∈ t := by
      rcases List.mem_append.mp h2 with h | h
      · exact Or.inl h
      · rcases List.mem_cons.mp h with h | h
        · exact absurd (congrArg Doc.source h.symm) hne
        · exact Or.inr h
    have hsplit : buildChunks split (s ++ d1 :: t) =
        buildChunks split s ++
          (mkChunks d1.source 0 (split d1.content) ++ buildChunks split t) := by
      rw [buildChunks_append]
      rfl
    rw [hsplit, List.countP_append, List.countP_append]
    have hc1 : 1 ≤ (mkChunks d1.source 0 (split d1.content)).countP
        (fun c => decide (c.id = theId)) := hblock d1 rfl hi1
    rcases hd2 with h | h
    · have hc2 : 1 ≤ (buildChunks split s).countP (fun c => decide (c.id = theId)) :=
        le_trans (hblock d2 hb.symm hi2) (countP_buildChunks_ge_of_mem _ h)
      omega
    · have hc2 : 1 ≤ (buildChunks split t).countP (fun c => decide (c.id = theId)) :=
        le_trans (hblock d2 hb.symm hi2) (countP_buildChunks_ge_of_mem _ h)
      omega
  refine ⟨hcount2, ?_, ?_⟩
  · intro hnd
    have hle := nodup_countP_le_one theId hnd
    rw [List.countP_map] at hle
    have : (buildChunks split docs).countP (fun c => decide (c.id = theId)) ≤ 1 := by
      calc (buildChunks split docs).countP (fun c => decide (c.id = theId))
          = (buildChunks split docs).countP
              ((fun x => decide (x = theId)) ∘ Chunk.id) := by
            apply List.countP_congr
            intro c _
            simp
        _ ≤ 1 := hle
    omega
  · have hnodup := (upsertAll_fold_keys (buildChunks split docs) [] (by simp)).1
    have hmem : theId ∈ (upsertAll (buildChunks split docs)).map Prod.fst := by
      rcases mkChunks_id_mem d1.source (split d1.content) 0 i hi1
        with ⟨c, hc, hcid⟩
      have hcin : c ∈ buildChunks split docs := mem_buildChunks_of_mem h1 hc
      have hkey := (upsertAll_fold_keys (buildChunks split docs) [] (by simp)).2.2 c hcin
      rw [hcid, Nat.zero_add] at hkey
      exact hkey
    have := nodup_countP_eq_one hnodup hmem
    exact this

/-- C10 witness: two one-chunk documents under different directories with
the same file name collide on chunk id `x_0`; the upsert keeps one. -/
theorem chunk_id_collision_witness :
    2 ≤ (buildChunks (fun s => [s]) [⟨"a/x", "c1"⟩, ⟨"b/x", "c2"⟩]).countP
        (fun c => decide (c.id = basename (Doc.source ⟨"a/x", "c1"⟩) ++ "_" ++ toString 0)) ∧
    ¬ ((buildChunks (fun s => [s]) [⟨"a/x", "c1"⟩, ⟨"b/x", "c2"⟩]).map Chunk.id).Nodup ∧
    ((upsertAll (buildChunks (fun s => [s]) [⟨"a/x", "c1"⟩, ⟨"b/x", "c2"⟩])).map
        Prod.fst).countP
      (fun k => decide (k = basename (Doc.source ⟨"a/x", "c1"⟩) ++ "_" ++ toString 0)) = 1 :=
  chunk_id_collision (fun s => [s]) [⟨"a/x", "c1"⟩, ⟨"b/x", "c2"⟩]
    ⟨"a/x", "c1"⟩ ⟨"b/x", "c2"⟩ 0 (by simp) (by simp) (by decide) (by decide)
    (by decide) (by decide)

/-! ## C6: chunk length bound and overlap -/

theorem windowsAux_length_le (size step : Nat) :
    ∀ (fuel : Nat) (l : List Char), ∀ c ∈ windowsAux size step fuel l, c.length ≤ size := by
  intro fuel
  induction fuel with
  | zero => intro l c hc; simp [windowsAux] at hc
  | succ fuel ih =>
    intro l c hc
    rw [windowsAux] at hc
    by_cases hnil : l = []
    · rw [if_pos hnil] at hc; simp at hc
    · rw [if_neg hnil] at hc
      by_cases hl : l.length ≤ size
      · rw [if_pos hl] at hc
        simp only [List.mem_singleton] at hc
        exact hc ▸ hl
      · rw [if_neg hl] at hc
        rcases List.mem_cons.mp hc with hc | hc
        · subst hc
          simp [List.length_take]
        · exact ih _ c hc

theorem windowsAux_head_take (size step : Nat) :
    ∀ (fuel : Nat) (l : List Char) (y : List Char),
      (windowsAux size step fuel l).head? = some y →
      y.take (size - step) = l.take (size - step) := by
  intro fuel l y h
  cases fuel with
  | zero => simp [windowsAux] at h
  | succ fuel =>
    rw [windowsAux] at h
    by_cases hnil : l = []
    · rw [if_pos hnil] at h; simp at h
    · rw [if_neg hnil] at h
      by_cases hl : l.length ≤ size
      · rw [if_pos hl] at h
        simp only [List.head?_cons, Option.some.injEq] at h
        rw [← h]
      · rw [if_neg hl] at h
        simp only [List.head?_cons, Option.some.injEq] at h
        rw [← h, List.take_take]
        congr 1
        omega

theorem windowsAux_chain (size step : Nat) (hstep : 0 < step) (hss : step < size) :
    ∀ (fuel : Nat) (l : List Char),
      List.Chain' (fun a b => a.drop step = b.take (size - step) ∧
        (a.drop step).length = size - step) (windowsAux size step fuel l) := by
  intro fuel
  induction fuel with
  | zero => intro l; simp [windowsAux]
  | succ fuel ih =>
    intro l
    rw [windowsAux]
    by_cases hnil : l = []
    · rw [if_pos hnil]; simp
    · rw [if_neg hnil]
      by_cases hl : l.length ≤ size
      · rw [if_pos hl]; simp
      · rw [if_neg hl]
        apply List.chain'_cons'.mpr
        refine ⟨?_, ih _⟩
        intro y hy
        have htake := windowsAux_head_take size step fuel _ y hy
        constructor
        · rw [List.drop_take size step, htake]
        · rw [List.drop_take size step]
          rw [List.length_take, List.length_drop]
          push_neg at hl
          omega

/-- C6: every chunk produced by the configured splitter has at most
`chunk_size` characters, and every pair of consecutive chunks overlaps in
exactly `chunk_overlap` characters: the last `chunk_overlap` characters
of a chunk are the first `chunk_overlap` characters of the next one. -/
theorem split_text_bounds (s : String) :
    (∀ c ∈ split_text s, c.length ≤ chunk_size) ∧
    List.Chain' (fun a b =>
      a.data.drop (chunk_size - chunk_overlap) = b.data.take chunk_overlap ∧
      (a.data.drop (chunk_size - chunk_overlap)).length = chunk_overlap)
      (split_text s) := by
  constructor
  · intro c hc
    unfold split_text at hc
    rcases List.mem_map.mp hc with ⟨w, hw, hcw⟩
    have := windowsAux_length_le chunk_size (chunk_size - chunk_overlap)
      _ _ w hw
    rw [← hcw]
    exact this
  · unfold split_text
    apply (List.chain'_map String.mk).mpr
    have h := windowsAux_chain chunk_size (chunk_size - chunk_overlap)
      (by decide) (by decide) (s.data.length + 1) s.data
    have heq : chunk_size - (chunk_size - chunk_overlap) = chunk_overlap := by decide
    apply List.Chain'.imp _ h
    intro a b hab
    rw [heq] at hab
    exact hab

/-- C6 witness: a two-character text yields the single chunk `"ab"`,
within the length bound. -/
theorem split_text_bounds_witness :
    ("ab" : String) ∈ split_text "ab" ∧ ("ab" : String).length ≤ chunk_size :=
  ⟨by decide, (split_text_bounds "ab").1 "ab" (by decide)⟩

/-! ## C3, C4, C9: answer_question paths -/

/-- C3: if the vector query returns zero matches, or every returned match
has empty text, `answer_question` returns the corresponding fixed
no-relevant-information message and the LLM collaborator is never
invoked. -/
theorem answer_question_short_circuit (env : QAEnv) (query : String)
    (n_results : Nat) (emb : List ℚ) (hemb : env.embed query = .ok emb) :
    (env.queryIndex emb n_results = .ok [] →
      (answer_question env query n_results).result = .plain noInfoMsg ∧
      (answer_question env query n_results).llmCalls = 0) ∧
    (∀ ms, env.queryIndex emb n_results = .ok ms → ms ≠ [] →
      (∀ m ∈ ms, matchText m = "") →
      (answer_question env query n_results).result = .plain noContentMsg ∧
      (answer_question env query n_results).llmCalls = 0) := by
  constructor
  · intro hq
    simp [answer_question, hemb, hq]
  · intro ms hq hne hempty
    have hparts : (processMatches ms).1 = [] := by
      clear hne hq
      induction ms with
      | nil => rfl
      | cons m rest ih =>
        rw [processMatches, if_neg (by simp [hempty m (by simp)])]
        exact ih (fun x hx => hempty x (by simp [hx]))
    simp [answer_question, hemb, hq, if_neg hne, if_pos hparts]

/-- C3 witness: with an index returning zero matches the pipeline answers
the fixed message and performs no LLM call. -/
theorem answer_question_short_circuit_witness :
    (answer_question ⟨fun _ => .ok [], fun _ _ => .ok [], fun _ => .ok "x"⟩
      "q" 5).result = .plain noInfoMsg ∧
    (answer_question ⟨fun _ => .ok [], fun _ _ => .ok [], fun _ => .ok "x"⟩
      "q" 5).llmCalls = 0 :=
  (answer_question_short_circuit
    ⟨fun _ => .ok [], fun _ _ => .ok [], fun _ => .ok "x"⟩ "q" 5 [] rfl).1 rfl

/-- C4 counterexample: on the empty-retrieval path `answer_question`
returns a bare string, not the structured record claimed for every
execution path. -/
theorem answer_question_shape_cex :
    (answer_question ⟨fun _ => .ok [], fun _ _ => .ok [], fun _ => .ok "x"⟩
      "q" 5).result.isPlainStr = true ∧
    (answer_question ⟨fun _ => .ok [], fun _ _ => .ok [], fun _ => .ok "x"⟩
      "q" 5).result = .plain noInfoMsg := by
  constructor
  · rfl
  · rfl

/-- C4 (amended): the structured record `{answer, sources,
confidence_scores, context_used}` is returned exactly on the successful
path (nonempty retrieval, at least one nonempty text, successful LLM
call); the empty-retrieval, empty-context and exception paths return a
bare string instead. -/
theorem answer_question_shape (env : QAEnv) (query : String) (n_results : Nat) :
    (∀ emb ms a, env.embed query = .ok emb →
      env.queryIndex emb n_results = .ok ms → ms ≠ [] →
      (processMatches ms).1 ≠ [] →
      env.llm (buildPrompt (String.intercalate "\n\n---\n\n" (processMatches ms).1)
        query) = .ok a →
      (answer_question env query n_results).result =
        .structured a (processMatches ms).2.1 (processMatches ms).2.2
          (processMatches ms).1.length) ∧
    ((∀ emb ms, env.embed query = .ok emb → env.queryIndex emb n_results = .ok ms →
        ms = [] ∨ (processMatches ms).1 = [] ∨
        (∃ e, env.llm (buildPrompt
          (String.intercalate "\n\n---\n\n" (processMatches ms).1) query) = .error e)) →
      ∃ s, (answer_question env query n_results).result = .plain s) := by
  constructor
  · intro emb ms a hemb hq hne hparts hllm
    simp only [answer_question, hemb, hq, if_neg hne, if_neg hparts, hllm]
  · intro hfail
    cases hemb : env.embed query with
    | error e =>
      refine ⟨errMsgPrefix ++ e, ?_⟩
      simp only [answer_question, hemb]
    | ok emb =>
      cases hq : env.queryIndex emb n_results with
      | error e =>
        refine ⟨errMsgPrefix ++ e, ?_⟩
        simp only [answer_question, hemb, hq]
      | ok ms =>
        by_cases hms : ms = []
        · refine ⟨noInfoMsg, ?_⟩
          simp only [answer_question, hemb, hq, if_pos hms]
        · by_cases hparts : (processMatches ms).1 = []
          · refine ⟨noContentMsg, ?_⟩
            simp only [answer_question, hemb, hq, if_neg hms, if_pos hparts]
          · rcases hfail emb ms hemb hq with h | h | ⟨e, hllm⟩
            · exact absurd h hms
            · exact absurd h hparts
            · refine ⟨errMsgPrefix ++ e, ?_⟩
              simp only [answer_question, hemb, hq, if_neg hms, if_neg hparts, hllm]

/-- C4 amended, witness: a successful run with one nonempty match returns
the structured record with that source, score and context count. -/
theorem answer_question_shape_witness :
    (answer_question
      ⟨fun _ => .ok [1], fun _ _ => .ok [⟨some 1, some ⟨some "t", some "s"⟩⟩],
        fun _ => .ok "ans"⟩ "q" 5).result =
      .structured "ans" ["s"] [1] 1 := by
  have h := (answer_question_shape
    ⟨fun _ => .ok [1], fun _ _ => .ok [⟨some 1, some ⟨some "t", some "s"⟩⟩],
      fun _ => .ok "ans"⟩ "q" 5).1 [1] [⟨some 1, some ⟨some "t", some "s"⟩⟩] "ans"
    rfl rfl (by decide) (by decide) rfl
  exact h

/-- C9: if the embedding call fails, `answer_question` reports the failure
to its caller inside the fixed error message, never queries the index
(so no zero vector is substituted for the failed embedding) and never
invokes the LLM. -/
theorem answer_question_embed_failure (env : QAEnv) (query : String)
    (n_results : Nat) (e : String) (hemb : env.embed query = .error e) :
    (answer_question env query n_results).result = .plain (errMsgPrefix ++ e) ∧
    (answer_question env query n_results).queryCalls = 0 ∧
    (answer_question env query n_results).llmCalls = 0 := by
  simp [answer_question, hemb]

/-- C9 witness: a failing embedding collaborator yields the error-bearing
message, no index query, no LLM call. -/
theorem answer_question_embed_failure_witness :
    (answer_question ⟨fun _ => .error "boom", fun _ _ => .ok [], fun _ => .ok "x"⟩
      "q" 5).result = .plain (errMsgPrefix ++ "boom") ∧
    (answer_question ⟨fun _ => .error "boom", fun _ _ => .ok [], fun _ => .ok "x"⟩
      "q" 5).queryCalls = 0 ∧
    (answer_question ⟨fun _ => .error "boom", fun _ _ => .ok [], fun _ => .ok "x"⟩
      "q" 5).llmCalls = 0 :=
  answer_question_embed_failure
    ⟨fun _ => .error "boom", fun _ _ => .ok [], fun _ => .ok "x"⟩ "q" 5 "boom" rfl

/-! ## Lemmas: adjacency construction -/

theorem addNbr_isSome (adj : String → Option (List String)) (u w n : String) :
    (addNbr adj u w n).isSome = (adj n).isSome := by
  unfold addNbr
  by_cases h : n = u
  · rw [if_pos h]
    cases adj n <;> rfl
  · rw [if_neg h]

theorem insertRels_isSome (rels : List KGRel) :
    ∀ (adj : String → Option (List String)) (n : String),
      (insertRels adj rels n).isSome = (adj n).isSome := by
  induction rels with
  | nil => intro adj n; rfl
  | cons r rest ih =>
    intro adj n
    rw [insertRels]
    by_cases h : (adj r.source).isSome ∧ (adj r.target).isSome
    · rw [if_pos h, ih, addNbr_isSome, addNbr_isSome]
    · rw [if_neg h, ih]

theorem emptyAdj_isSome (es : List KGEntity) (n : String) :
    (emptyAdj es n).isSome = true ↔ n ∈ entityNames es := by
  unfold emptyAdj
  by_cases h : n ∈ entityNames es
  · rw [if_pos h]; simp [h]
  · rw [if_neg h]; simp [h]

theorem buildAdj_isSome (es : List KGEntity) (rels : List KGRel) (n : String) :
    (buildAdj es rels n).isSome = true ↔ n ∈ entityNames es := by
  unfold buildAdj
  rw [insertRels_isSome]
  exact emptyAdj_isSome es n

theorem mem_adjGet_addNbr {adj : String → Option (List String)} {u w n x : String} :
    x ∈ adjGet (addNbr adj u w) n ↔
      x ∈ adjGet adj n ∨ (n = u ∧ (adj u).isSome = true ∧ x = w) := by
  unfold adjGet addNbr
  by_cases h : n = u
  · subst h
    cases hadj : adj n with
    | none => simp [hadj]
    | some l => simp [hadj]
  · simp [h]

theorem mem_adjGet_insertRels (rels : List KGRel) :
    ∀ (adj : String → Option (List String)) (u x : String),
      x ∈ adjGet (insertRels adj rels) u ↔
        x ∈ adjGet adj u ∨
        ∃ r ∈ rels, (adj r.source).isSome = true ∧ (adj r.target).isSome = true ∧
          ((r.source = u ∧ r.target = x) ∨ (r.target = u ∧ r.source = x)) := by
  induction rels with
  | nil => intro adj u x; simp [insertRels]
  | cons r rest ih =>
    intro adj u x
    rw [insertRels]
    by_cases h : (adj r.source).isSome ∧ (adj r.target).isSome
    · rw [if_pos h]
      rw [ih]
      constructor
      · intro hx
        rcases hx with hx | ⟨q, hq, hq1, hq2, hq3⟩
        · rcases mem_adjGet_addNbr.mp hx with hx | ⟨h1, h2, h3⟩
          · rcases mem_adjGet_addNbr.mp hx with hx | ⟨h1, h2, h3⟩
            · exact Or.inl hx
            · exact Or.inr ⟨r, by simp, h.1, h.2, Or.inl ⟨h1.symm, h3.symm⟩⟩
          · rw [addNbr_isSome] at h2
            exact Or.inr ⟨r, by simp, h.1, h.2, Or.inr ⟨h1.symm, h3.symm⟩⟩
        · rw [addNbr_isSome, addNbr_isSome] at hq1
          rw [addNbr_isSome, addNbr_isSome] at hq2
          exact Or.inr ⟨q, List.mem_cons_of_mem r hq, hq1, hq2, hq3⟩
      · intro hx
        rcases hx with hx | ⟨q, hq, hq1, hq2, hq3⟩
        · exact Or.inl (mem_adjGet_addNbr.mpr (Or.inl (mem_adjGet_addNbr.mpr (Or.inl hx))))
        · rcases List.mem_cons.mp hq with hq | hq
          · subst hq
            rcases hq3 with ⟨h1, h2⟩ | ⟨h1, h2⟩
            · exact Or.inl (mem_adjGet_addNbr.mpr (Or.inl
                (mem_adjGet_addNbr.mpr (Or.inr ⟨h1.symm, hq1, h2.symm⟩))))
            · refine Or.inl (mem_adjGet_addNbr.mpr (Or.inr ⟨h1.symm, ?_, h2.symm⟩))
              rw [addNbr_isSome]
              exact hq2
          · refine Or.inr ⟨q, hq, ?_, ?_, hq3⟩
            · rw [addNbr_isSome, addNbr_isSome]; exact hq1
            · rw [addNbr_isSome, addNbr_isSome]; exact hq2
    · rw [if_neg h]
      rw [ih]
      constructor
      · intro hx
        rcases hx with hx | ⟨q, hq, hq1, hq2, hq3⟩
        · exact Or.inl hx
        · exact Or.inr ⟨q, List.mem_cons_of_mem r hq, hq1, hq2, hq3⟩
      · intro hx
        rcases hx with hx | ⟨q, hq, hq1, hq2, hq3⟩
        · exact Or.inl hx
        · rcases List.mem_cons.mp hq with hq | hq
          · subst hq
            exact absurd ⟨hq1, hq2⟩ h
          · exact Or.inr ⟨q, hq, hq1, hq2, hq3⟩

theorem adjGet_emptyAdj (es : List KGEntity) (u : String) :
    adjGet (emptyAdj es) u = [] := by
  unfold adjGet emptyAdj
  by_cases h : u ∈ entityNames es
  · rw [if_pos h]; rfl
  · rw [if_neg h]; rfl

theorem mem_adjGet_buildAdj {es : List KGEntity} {rels : List KGRel} {u x : String} :
    x ∈ adjGet (buildAdj es rels) u ↔ EdgeRel es rels u x := by
  unfold buildAdj EdgeRel
  rw [mem_adjGet_insertRels, adjGet_emptyAdj]
  simp only [List.not_mem_nil, false_or]
  constructor
  · rintro ⟨r, hr, h1, h2, h3⟩
    exact ⟨r, hr, (emptyAdj_isSome es r.source).mp h1, (emptyAdj_isSome es r.target).mp h2,
      by tauto⟩
  · rintro ⟨r, hr, h1, h2, h3⟩
    exact ⟨r, hr, (emptyAdj_isSome es r.source).mpr h1, (emptyAdj_isSome es r.target).mpr h2,
      by tauto⟩

theorem adjGet_buildAdj_mem_names {es : List KGEntity} {rels : List KGRel}
    {u x : String} (h : x ∈ adjGet (buildAdj es rels) u) : x ∈ entityNames es := by
  rcases mem_adjGet_buildAdj.mp h with ⟨r, _, hs, ht, hc⟩
  rcases hc with ⟨_, h2⟩ | ⟨_, h2⟩
  · exact h2 ▸ ht
  · exact h2 ▸ hs

/-! ## Lemmas: reachability -/

theorem reachBy_mono {es : List KGEntity} {rels : List KGRel} {S : List String}
    {n m : Nat} {v : String} (hnm : n ≤ m) (h : reachBy es rels S n v) :
    reachBy es rels S m v := by
  induction m with
  | zero => exact (Nat.le_zero.mp hnm) ▸ h
  | succ m ih =>
    rcases Nat.lt_or_ge n (m + 1) with hlt | hge
    · exact Or.inl (ih (Nat.lt_succ_iff.mp hlt))
    · exact (Nat.le_antisymm hnm hge) ▸ h

theorem reachBy_nil {es : List KGEntity} {rels : List KGRel} {n : Nat}
    {v : String} : ¬ reachBy es rels [] n v := by
  induction n generalizing v with
  | zero => simp [reachBy]
  | succ n ih =>
    rintro (h | ⟨u, hu, _⟩)
    · exact ih h
    · exact ih hu

theorem assoc_eq_of_nodup_keys {l : List (String × Nat)}
    (h : (l.map Prod.fst).Nodup) {v : String} {k1 k2 : Nat}
    (h1 : (v, k1) ∈ l) (h2 : (v, k2) ∈ l) : k1 = k2 := by
  induction l with
  | nil => simp at h1
  | cons p rest ih =>
    rw [List.map_cons, List.nodup_cons] at h
    rcases List.mem_cons.mp h1 with h1 | h1 <;> rcases List.mem_cons.mp h2 with h2 | h2
    · simpa using h1.trans h2.symm
    · have hv : v ∈ rest.map Prod.fst := List.mem_map_of_mem Prod.fst h2
      rw [← h1] at h
      exact absurd hv h.1
    · have hv : v ∈ rest.map Prod.fst := List.mem_map_of_mem Prod.fst h1
      rw [← h2] at h
      exact absurd hv h.1
    · exact ih h.2 h1 h2

theorem mem_map_fst_iff {l : List (String × Nat)} {v : String} :
    v ∈ l.map Prod.fst ↔ ∃ j, (v, j) ∈ l := by
  constructor
  · intro h
    rcases List.mem_map.mp h with ⟨p, hp, hpv⟩
    exact ⟨p.2, by rw [← hpv]; exact hp⟩
  · rintro ⟨j, hj⟩
    exact List.mem_map_of_mem Prod.fst hj

/-! ## Lemmas: the BFS neighbor-push loop -/

theorem bfsPush_spec (es : List KGEntity) (rels : List KGRel) (S : List String)
    (maxd d : Nat) (hdm : d ≤ maxd) :
    ∀ (ws : List String) (s : BfsState),
      (∀ w ∈ ws, reachBy es rels S d w) →
      s.depths.map Prod.fst = s.visited →
      s.visited.Nodup →
      (∀ p ∈ s.queue, p ∈ s.depths) →
      (∀ p ∈ s.depths, reachBy es rels S p.2 p.1 ∧ p.2 ≤ maxd) →
      List.Pairwise (fun p q : String × Nat => p.2 ≤ q.2) s.queue →
      (s.queue.map Prod.fst).Nodup →
      (∀ p ∈ s.queue, d - 1 ≤ p.2 ∧ p.2 ≤ d) →
      (∀ p ∈ s.depths, p.2 ≤ d) →
      ((bfsPush d s ws).depths.map Prod.fst = (bfsPush d s ws).visited ∧
       (bfsPush d s ws).visited.Nodup ∧
       (∀ p ∈ (bfsPush d s ws).queue, p ∈ (bfsPush d s ws).depths) ∧
       (∀ p ∈ (bfsPush d s ws).depths, reachBy es rels S p.2 p.1 ∧ p.2 ≤ maxd) ∧
       List.Pairwise (fun p q : String × Nat => p.2 ≤ q.2) (bfsPush d s ws).queue ∧
       ((bfsPush d s ws).queue.map Prod.fst).Nodup ∧
       (∀ p ∈ (bfsPush d s ws).queue, d - 1 ≤ p.2 ∧ p.2 ≤ d) ∧
       (∀ p ∈ (bfsPush d s ws).depths, p.2 ≤ d) ∧
       (∀ p ∈ s.depths, p ∈ (bfsPush d s ws).depths) ∧
       (∀ w ∈ ws, ∃ j, (w, j) ∈ (bfsPush d s ws).depths ∧ j ≤ d) ∧
       (∀ p ∈ s.queue, p ∈ (bfsPush d s ws).queue) ∧
       (∀ p ∈ (bfsPush d s ws).queue, p ∈ s.queue ∨ (p.2 = d ∧ p.1 ∈ ws)) ∧
       (∀ p ∈ (bfsPush d s ws).depths, p ∈ s.depths ∨ (p.2 = d ∧ p.1 ∈ ws)) ∧
       (∀ p ∈ (bfsPush d s ws).depths, p ∉ s.depths → p ∈ (bfsPush d s ws).queue)) := by
  intro ws
  induction ws with
  | nil =>
    intro s hreach hkeys hnodup hqmem hsound hqsorted hqkeys hband hdbound
    rw [bfsPush]
    refine ⟨hkeys, hnodup, hqmem, hsound, hqsorted, hqkeys, hband, hdbound,
      fun p hp => hp, by simp, fun p hp => hp, fun p hp => Or.inl hp,
      fun p hp => Or.inl hp, fun p hp hnp => absurd hp hnp⟩
  | cons w ws ih =>
    intro s hreach hkeys hnodup hqmem hsound hqsorted hqkeys hband hdbound
    rw [bfsPush]
    by_cases hw : w ∈ s.visited
    · rw [if_pos hw]
      obtain ⟨c1, c2, c3, c4, c5, c6, c7, c8, c9, c10, c11, c12, c13, c14⟩ :=
        ih s (fun x hx => hreach x (by simp [hx])) hkeys hnodup hqmem hsound
          hqsorted hqkeys hband hdbound
      refine ⟨c1, c2, c3, c4, c5, c6, c7, c8, c9, ?_, c11, ?_, ?_, c14⟩
      · intro x hx
        rcases List.mem_cons.mp hx with hx | hx
        · subst hx
          have hx2 : x ∈ s.depths.map Prod.fst := hkeys ▸ hw
          rcases mem_map_fst_iff.mp hx2 with ⟨j, hj⟩
          exact ⟨j, c9 _ hj, (hdbound _ hj : (x, j).2 ≤ d)⟩
        · exact c10 x hx
      · intro p hp
        rcases c12 p hp with hp | ⟨hp1, hp2⟩
        · exact Or.inl hp
        · exact Or.inr ⟨hp1, List.mem_cons_of_mem w hp2⟩
      · intro p hp
        rcases c13 p hp with hp | ⟨hp1, hp2⟩
        · exact Or.inl hp
        · exact Or.inr ⟨hp1, List.mem_cons_of_mem w hp2⟩
    · rw [if_neg hw]
      have hqsub : ∀ p ∈ s.queue, p.1 ∈ s.visited := by
        intro p hp
        exact hkeys ▸ List.mem_map_of_mem Prod.fst (hqmem p hp)
      obtain ⟨c1, c2, c3, c4, c5, c6, c7, c8, c9, c10, c11, c12, c13, c14⟩ :=
        ih ⟨s.visited ++ [w], s.depths ++ [(w, d)], s.queue ++ [(w, d)]⟩
          (fun x hx => hreach x (by simp [hx]))
          (by simp [← hkeys])
          (by rw [List.nodup_append]
              exact ⟨hnodup, by simp, by intro a ha hb
                                         simp only [List.mem_singleton] at hb
                                         exact hw (hb ▸ ha)⟩)
          (by intro p hp
              rcases List.mem_append.mp hp with hp | hp
              · exact List.mem_append_left _ (hqmem p hp)
              · exact List.mem_append_right _ hp)
          (by intro p hp
              rcases List.mem_append.mp hp with hp | hp
              · exact hsound p hp
              · simp only [List.mem_singleton] at hp
                subst hp
                exact ⟨hreach w (by simp), hdm⟩)
          (by rw [List.pairwise_append]
              exact ⟨hqsorted, by simp, by
                intro p hp q hq
                simp only [List.mem_singleton] at hq
                subst hq
                exact (hband p hp).2⟩)
          (by rw [List.map_append, List.nodup_append]
              refine ⟨hqkeys, by simp, ?_⟩
              intro a ha hb
              simp only [List.map_cons, List.map_nil, List.mem_singleton] at hb
              subst hb
              rcases mem_map_fst_iff.mp ha with ⟨j, hj⟩
              exact hw (hqsub _ hj)
          )
          (by intro p hp
              rcases List.mem_append.mp hp with hp | hp
              · exact hband p hp
              · simp only [List.mem_singleton] at hp
                subst hp
                exact ⟨Nat.sub_le d 1, Nat.le_refl d⟩)
          (by intro p hp
              rcases List.mem_append.mp hp with hp | hp
              · exact hdbound p hp
              · simp only [List.mem_singleton] at hp
                subst hp
                exact Nat.le_refl d)
      refine ⟨c1, c2, c3, c4, c5, c6, c7, c8, ?_, ?_, ?_, ?_, ?_, ?_⟩
      · intro p hp
        exact c9 p (List.mem_append_left _ hp)
      · intro x hx
        rcases List.mem_cons.mp hx with hx | hx
        · subst hx
          exact ⟨d, c9 (x, d) (List.mem_append_right _ (by simp)), Nat.le_refl d⟩
        · exact c10 x hx
      · intro p hp
        exact c11 p (List.mem_append_left _ hp)
      · intro p hp
        rcases c12 p hp with hp | ⟨hp1, hp2⟩
        · rcases List.mem_append.mp hp with hp | hp
          · exact Or.inl hp
          · simp only [List.mem_singleton] at hp
            subst hp
            exact Or.inr ⟨rfl, by simp⟩
        · exact Or.inr ⟨hp1, List.mem_cons_of_mem w hp2⟩
      · intro p hp
        rcases c13 p hp with hp | ⟨hp1, hp2⟩
        · rcases List.mem_append.mp hp with hp | hp
          · exact Or.inl hp
          · simp only [List.mem_singleton] at hp
            subst hp
            exact Or.inr ⟨rfl, by simp⟩
        · exact Or.inr ⟨hp1, List.mem_cons_of_mem w hp2⟩
      · intro p hp hnp
        by_cases hp1 : p ∈ s.depths ++ [(w, d)]
        · rcases List.mem_append.mp hp1 with hp2 | hp2
          · exact absurd hp2 hnp
          · simp only [List.mem_singleton] at hp2
            subst hp2
            exact c11 _ (List.mem_append_right _ (by simp))
        · exact c14 p hp hp1

/-! ## Lemmas: BFS initialization, step and run -/

theorem initState_inv (es : List KGEntity) (rels : List KGRel) (maxd : Nat)
    (seeds : List String) :
    BfsInv es rels seeds maxd (initState seeds) ∧
    (∀ w ∈ seeds, (w, 0) ∈ (initState seeds).depths) := by
  have hempty : (⟨[], [], []⟩ : BfsState).depths.map Prod.fst =
      (⟨[], [], []⟩ : BfsState).visited := rfl
  obtain ⟨c1, c2, c3, c4, c5, c6, c7, c8, c9, c10, c11, c12, c13, c14⟩ :=
    bfsPush_spec es rels seeds maxd 0 (Nat.zero_le maxd) seeds ⟨[], [], []⟩
      (fun w hw => hw) hempty (by simp) (by simp) (by simp) (by simp) (by simp)
      (by simp) (by simp)
  constructor
  · refine ⟨c1, c2, c3, c4, c5, c6, ?_, ?_⟩
    · intro p hp q _
      exact Nat.le_trans (c8 p hp) (Nat.le_add_left 0 (q.2 + 1))
    · intro p hp hnq _ w _
      have hpq : p ∈ (initState seeds).queue := by
        apply c14 p hp
        simp
      exact absurd (by rw [← Prod.mk.eta (p := p)] at hpq; exact hpq) (hnq p.2)
  · intro w hw
    rcases c10 w hw with ⟨j, hj, hj0⟩
    have : j = 0 := Nat.le_zero.mp hj0
    exact this ▸ hj

theorem bfsStep_inv (es : List KGEntity) (rels : List KGRel) (S : List String)
    (maxd : Nat) (st : BfsState) (hinv : BfsInv es rels S maxd st) :
    BfsInv es rels S maxd (bfsStep (buildAdj es rels) maxd st) ∧
    (∀ p ∈ st.depths, p ∈ (bfsStep (buildAdj es rels) maxd st).depths) := by
  have hdkeys : (st.depths.map Prod.fst).Nodup := hinv.keys ▸ hinv.nodupV
  cases hq : st.queue with
  | nil =>
    simp only [bfsStep, hq]
    exact ⟨hinv, fun p hp => hp⟩
  | cons front rest =>
    obtain ⟨v, k⟩ := front
    have hfront : (v, k) ∈ st.queue := by rw [hq]; simp
    have hvk : (v, k) ∈ st.depths := hinv.qmem _ hfront
    have hresttail : ∀ p ∈ rest, p ∈ st.queue := by
      intro p hp; rw [hq]; exact List.mem_cons_of_mem _ hp
    have hrest_ge : ∀ p ∈ rest, k ≤ p.2 := by
      have := hinv.qsorted
      rw [hq] at this
      intro p hp
      exact (List.pairwise_cons.mp this).1 p hp
    have hrest_le : ∀ p ∈ rest, p.2 ≤ k + 1 := by
      intro p hp
      exact hinv.window p (hinv.qmem p (hresttail p hp)) (v, k) (by rw [hq]; rfl)
    have hwin : ∀ p ∈ st.depths, p.2 ≤ k + 1 := by
      intro p hp
      exact hinv.window p hp (v, k) (by rw [hq]; rfl)
    simp only [bfsStep, hq]
    by_cases hk : maxd ≤ k
    · rw [if_pos hk]
      refine ⟨⟨hinv.keys, hinv.nodupV, ?_, hinv.sound, ?_, ?_, ?_, ?_⟩,
        fun p hp => hp⟩
      · intro p hp
        exact hinv.qmem p (hresttail p hp)
      · have := hinv.qsorted
        rw [hq] at this
        exact (List.pairwise_cons.mp this).2
      · have := hinv.qkeys
        rw [hq, List.map_cons, List.nodup_cons] at this
        exact this.2
      · intro p hp q hq'
        have hqrest : q ∈ rest := List.mem_of_mem_head? hq'
        exact Nat.le_trans (hwin p hp) (Nat.succ_le_succ (hrest_ge q hqrest))
      · intro p hp hnq hpm w hw
        by_cases hpv : p.1 = v
        · have hpk : p.2 = k := by
            apply assoc_eq_of_nodup_keys hdkeys (v := v)
            · rw [← hpv]
              rw [Prod.mk.eta]
              exact hp
            · exact hvk
          omega
        · apply hinv.closure p hp _ hpm w hw
          intro j hj
          rw [hq] at hj
          rcases List.mem_cons.mp hj with hj | hj
          · exact hpv (congrArg Prod.fst hj)
          · exact hnq j hj
    · rw [if_neg hk]
      push_neg at hk
      have hk1 : k + 1 ≤ maxd := hk
      have hreachv : reachBy es rels S k v := (hinv.sound _ hvk).1
      obtain ⟨c1, c2, c3, c4, c5, c6, c7, c8, c9, c10, c11, c12, c13, c14⟩ :=
        bfsPush_spec es rels S maxd (k + 1) hk1
          (adjGet (buildAdj es rels) v) ⟨st.visited, st.depths, rest⟩
          (by intro w hw
              exact Or.inr ⟨v, hreachv, mem_adjGet_buildAdj.mp hw⟩)
          hinv.keys hinv.nodupV
          (by intro p hp; exact hinv.qmem p (hresttail p hp))
          hinv.sound
          (by have := hinv.qsorted
              rw [hq] at this
              exact (List.pairwise_cons.mp this).2)
          (by have := hinv.qkeys
              rw [hq, List.map_cons, List.nodup_cons] at this
              exact this.2)
          (by intro p hp
              exact ⟨by simpa using hrest_ge p hp, hrest_le p hp⟩)
          hwin
      refine ⟨⟨c1, c2, c3, c4, c5, c6, ?_, ?_⟩, c9⟩
      · intro p hp q hq'
        have hql : k + 1 - 1 ≤ q.2 :=
          (c7 q (List.mem_of_mem_head? hq')).1
        have : p.2 ≤ k + 1 := c8 p hp
        omega
      · intro p hp hnq hpm w hw
        by_cases hpv : p.1 = v
        · have hvk' : (v, k) ∈ (bfsPush (k + 1) ⟨st.visited, st.depths, rest⟩
              (adjGet (buildAdj es rels) v)).depths := c9 _ hvk
          have hdkeys' : ((bfsPush (k + 1) ⟨st.visited, st.depths, rest⟩
              (adjGet (buildAdj es rels) v)).depths.map Prod.fst).Nodup :=
            c1 ▸ c2
          have hpk : p.2 = k := by
            apply assoc_eq_of_nodup_keys hdkeys' (v := v)
            · have hp' := hp
              rw [← Prod.mk.eta (p := p)] at hp'
              rw [hpv] at hp'
              exact hp'
            · exact hvk'
          rcases c10 w (by rw [← hpv]; exact hw) with ⟨j, hj, hjle⟩
          exact ⟨j, hj, by omega⟩
        · have hpold : p ∈ st.depths := by
            by_cases hpo : p ∈ st.depths
            · exact hpo
            · have := c14 p hp hpo
              exact absurd (by rw [← Prod.mk.eta (p := p)] at this; exact this)
                (hnq p.2)
          have hnqold : ∀ j, (p.1, j) ∉ st.queue := by
            intro j hj
            rw [hq] at hj
            rcases List.mem_cons.mp hj with hj | hj
            · exact hpv (congrArg Prod.fst hj)
            · exact hnq j (c11 _ hj)
          rcases hinv.closure p hpold hnqold hpm w hw with ⟨k', hk', hkle⟩
          exact ⟨k', c9 _ hk', hkle⟩

theorem bfsRun_inv (es : List KGEntity) (rels : List KGRel) (S : List String)
    (maxd : Nat) :
    ∀ (fuel : Nat) (st : BfsState), BfsInv es rels S maxd st →
      BfsInv es rels S maxd (bfsRun (buildAdj es rels) maxd fuel st) ∧
      (∀ p ∈ st.depths, p ∈ (bfsRun (buildAdj es rels) maxd fuel st).depths) := by
  intro fuel
  induction fuel with
  | zero => intro st hinv; exact ⟨hinv, fun p hp => hp⟩
  | succ fuel ih =>
    intro st hinv
    cases hq : st.queue with
    | nil =>
      simp only [bfsRun, hq]
      exact ⟨hinv, fun p hp => hp⟩
    | cons front rest =>
      simp only [bfsRun, hq]
      obtain ⟨hstep, hmono⟩ := bfsStep_inv es rels S maxd st hinv
      obtain ⟨hrun, hmono2⟩ := ih (bfsStep (buildAdj es rels) maxd st) hstep
      exact ⟨hrun, fun p hp => hmono2 p (hmono p hp)⟩

/-! ## Lemmas: BFS termination (fuel sufficiency) -/

theorem countP_not_mem_snoc {names visited : List String} {w : String}
    (hw : w ∈ names) (hnv : w ∉ visited) :
    names.countP (fun n => decide (n ∉ visited ++ [w])) + 1 ≤
      names.countP (fun n => decide (n ∉ visited)) := by
  induction names with
  | nil => simp at hw
  | cons n ns ih =>
    rw [List.countP_cons, List.countP_cons]
    by_cases hnw : n = w
    · subst hnw
      have h1 : (decide (n ∉ visited ++ [n])) = false := by simp
      have h2 : (decide (n ∉ visited)) = true := by simp [hnv]
      rw [h1, h2]
      have hmono : ns.countP (fun x => decide (x ∉ visited ++ [n])) ≤
          ns.countP (fun x => decide (x ∉ visited)) := by
        apply List.countP_mono_left
        intro a _ ha
        simp only [decide_eq_true_eq] at ha ⊢
        intro hav
        exact ha (List.mem_append_left _ hav)
      simp only [Bool.false_eq_true, if_false, if_true]
      omega
    · have hw' : w ∈ ns := by
        rcases List.mem_cons.mp hw with h | h
        · exact absurd h.symm hnw
        · exact h
      have heq : (decide (n ∉ visited ++ [w])) = (decide (n ∉ visited)) := by
        by_cases hn : n ∈ visited
        · simp [hn]
        · simp [hn, List.mem_append, hnw]
      rw [heq]
      have := ih hw'
      omega

theorem bfsPush_measure (names : List String) (d : Nat) :
    ∀ (ws : List String) (s : BfsState), (∀ w ∈ ws, w ∈ names) →
      (bfsPush d s ws).queue.length + unseenCount names (bfsPush d s ws) ≤
        s.queue.length + unseenCount names s := by
  intro ws
  induction ws with
  | nil => intro s _; rw [bfsPush]
  | cons w ws ih =>
    intro s hws
    rw [bfsPush]
    by_cases hw : w ∈ s.visited
    · rw [if_pos hw]
      exact ih s (fun x hx => hws x (List.mem_cons_of_mem w hx))
    · rw [if_neg hw]
      have h1 := ih ⟨s.visited ++ [w], s.depths ++ [(w, d)], s.queue ++ [(w, d)]⟩
        (fun x hx => hws x (List.mem_cons_of_mem w hx))
      have h2 : unseenCount names
          (⟨s.visited ++ [w], s.depths ++ [(w, d)], s.queue ++ [(w, d)]⟩ : BfsState) + 1 ≤
          unseenCount names s :=
        countP_not_mem_snoc (hws w (by simp)) hw
      simp only [List.length_append, List.length_cons, List.length_nil] at h1 ⊢
      omega

theorem bfsStep_measure (es : List KGEntity) (rels : List KGRel) (maxd : Nat)
    (st : BfsState) (hne : st.queue ≠ []) :
    (bfsStep (buildAdj es rels) maxd st).queue.length +
        unseenCount (entityNames es) (bfsStep (buildAdj es rels) maxd st) <
      st.queue.length + unseenCount (entityNames es) st := by
  cases hq : st.queue with
  | nil => exact absurd hq hne
  | cons front rest =>
    obtain ⟨v, k⟩ := front
    simp only [bfsStep, hq]
    by_cases hk : maxd ≤ k
    · rw [if_pos hk]
      simp only [unseenCount, List.length_cons]
      omega
    · rw [if_neg hk]
      have h1 := bfsPush_measure (entityNames es) (k + 1) (adjGet (buildAdj es rels) v)
        ⟨st.visited, st.depths, rest⟩ (fun w hw => adjGet_buildAdj_mem_names hw)
      simp only [unseenCount, List.length_cons] at h1 ⊢
      omega

theorem bfsRun_drains (es : List KGEntity) (rels : List KGRel) (maxd : Nat) :
    ∀ (fuel : Nat) (st : BfsState),
      st.queue.length + unseenCount (entityNames es) st ≤ fuel →
      (bfsRun (buildAdj es rels) maxd fuel st).queue = [] := by
  intro fuel
  induction fuel with
  | zero =>
    intro st hf
    have : st.queue.length = 0 := by omega
    rw [bfsRun]
    exact List.length_eq_zero.mp this
  | succ fuel ih =>
    intro st hf
    cases hq : st.queue with
    | nil => simp only [bfsRun, hq]
    | cons front rest =>
      simp only [bfsRun, hq]
      apply ih
      have := bfsStep_measure es rels maxd st (by rw [hq]; simp)
      omega

/-! ## C1: BFS subgraph expansion correctness -/

/-- C1: for every entity collection, relationship collection, seed set
drawn from the entity collection and depth bound `d`, the subgraph
expansion returns exactly the entities whose shortest-path distance from
some seed is at most `d` in the undirected graph induced by the
relationships with both endpoints present, and the recorded depth of
every node is exactly its minimal distance (and is at most `d`). -/
theorem find_connected_subgraph_correct (matching all_es : List KGEntity)
    (rels : List KGRel) (d : Nat)
    (hseeds : ∀ e ∈ matching, e.name ∈ entityNames all_es) :
    (∀ e ∈ all_es,
      (e ∈ (find_connected_subgraph matching all_es rels d).entities ↔
        ∃ n, n ≤ d ∧ reachBy all_es rels (matching.map KGEntity.name) n e.name)) ∧
    (∀ v k, ((v, k) ∈ (find_connected_subgraph matching all_es rels d).depths ↔
      (k ≤ d ∧ minDist all_es rels (matching.map KGEntity.name) k v))) := by
  by_cases hm : matching = []
  · subst hm
    have hfc : find_connected_subgraph [] all_es rels d =
        ⟨[], [], [], [], 0, 0⟩ := by
      rw [find_connected_subgraph, if_pos rfl]
    rw [hfc]
    constructor
    · intro e _
      simp only [List.not_mem_nil, false_iff]
      rintro ⟨n, _, hr⟩
      exact reachBy_nil (by simpa using hr)
    · intro v k
      simp only [List.not_mem_nil, false_iff]
      rintro ⟨_, hr, _⟩
      exact reachBy_nil (by simpa using hr)
  · have hdep : (find_connected_subgraph matching all_es rels d).depths =
        (bfsRun (buildAdj all_es rels) d
          ((initState (matching.map KGEntity.name)).queue.length + all_es.length)
          (initState (matching.map KGEntity.name))).depths := by
      rw [find_connected_subgraph, if_neg hm]
    have hent : (find_connected_subgraph matching all_es rels d).entities =
        all_es.filter (fun e => decide (e.name ∈
          (bfsRun (buildAdj all_es rels) d
            ((initState (matching.map KGEntity.name)).queue.length + all_es.length)
            (initState (matching.map KGEntity.name))).visited)) := by
      rw [find_connected_subgraph, if_neg hm]
    set S := matching.map KGEntity.name with hS
    set st0 := initState S with hst0
    set fuel := st0.queue.length + all_es.length with hfuel
    set stF := bfsRun (buildAdj all_es rels) d fuel st0 with hstF
    have hinit := initState_inv all_es rels d S
    have hrun := bfsRun_inv all_es rels S d fuel st0 hinit.1
    have hInv : BfsInv all_es rels S d stF := hrun.1
    have hseed0 : ∀ w ∈ S, (w, 0) ∈ stF.depths := fun w hw => hrun.2 _ (hinit.2 w hw)
    have hdrain : stF.queue = [] := by
      apply bfsRun_drains all_es rels d fuel st0
      have hle : unseenCount (entityNames all_es) st0 ≤ all_es.length := by
        have h1 : unseenCount (entityNames all_es) st0 ≤ (entityNames all_es).length :=
          List.countP_le_length _
        rwa [entityNames, List.length_map] at h1
      omega
    have hdkeys : (stF.depths.map Prod.fst).Nodup := hInv.keys ▸ hInv.nodupV
    have hcomp : ∀ n, n ≤ d → ∀ v, reachBy all_es rels S n v →
        ∃ k, k ≤ n ∧ (v, k) ∈ stF.depths := by
      intro n
      induction n with
      | zero =>
        intro _ v hv
        exact ⟨0, Nat.le_refl 0, hseed0 v hv⟩
      | succ n ihn =>
        intro hnd v hv
        rcases hv with hv | ⟨u, hu, hedge⟩
        · rcases ihn (Nat.le_of_succ_le hnd) v hv with ⟨k, hk, hkd⟩
          exact ⟨k, Nat.le_succ_of_le hk, hkd⟩
        · rcases ihn (Nat.le_of_succ_le hnd) u hu with ⟨k, hkn, hku⟩
          have hklt : k < d := by omega
          have hnq : ∀ j, ((u, k).1, j) ∉ stF.queue := by
            intro j hj
            rw [hdrain] at hj
            exact List.not_mem_nil _ hj
          rcases hInv.closure (u, k) hku hnq hklt v
            (mem_adjGet_buildAdj.mpr hedge) with ⟨k', hk', hkle⟩
          exact ⟨k', by omega, hk'⟩
    have hdepths : ∀ v k, ((v, k) ∈ stF.depths ↔
        (k ≤ d ∧ minDist all_es rels S k v)) := by
      intro v k
      constructor
      · intro hvk
        have hsound := hInv.sound (v, k) hvk
        refine ⟨hsound.2, hsound.1, ?_⟩
        intro j hj
        by_cases hjd : j ≤ d
        · rcases hcomp j hjd v hj with ⟨k', hk'j, hentry⟩
          have := assoc_eq_of_nodup_keys hdkeys hvk hentry
          omega
        · have := hsound.2
          omega
      · rintro ⟨hkd, hreach, hmin⟩
        rcases hcomp k hkd v hreach with ⟨k', hk'k, hentry⟩
        have h1 := (hInv.sound (v, k') hentry).1
        have h2 := hmin k' h1
        have : k = k' := by omega
        exact this ▸ hentry
    constructor
    · intro e he
      rw [hent]
      rw [List.mem_filter]
      simp only [decide_eq_true_eq]
      constructor
      · rintro ⟨_, hev⟩
        have hev2 : e.name ∈ stF.depths.map Prod.fst := hInv.keys ▸ hev
        rcases mem_map_fst_iff.mp hev2 with ⟨j, hj⟩
        have hsound := hInv.sound (e.name, j) hj
        exact ⟨j, hsound.2, hsound.1⟩
      · rintro ⟨n, hnd, hreach⟩
        rcases hcomp n hnd e.name hreach with ⟨k, _, hentry⟩
        refine ⟨he, ?_⟩
        rw [← hInv.keys]
        exact mem_map_fst_iff.mpr ⟨k, hentry⟩
    · intro v k
      rw [hdep]
      exact hdepths v k

/-- C1 witness: in the two-node graph `a - b` with seed `a` and depth 1,
the entity `b` is returned exactly because its distance from the seed is
at most 1. -/
theorem find_connected_subgraph_correct_witness :
    ((⟨"b", "t"⟩ : KGEntity) ∈
      (find_connected_subgraph [⟨"a", "t"⟩] [⟨"a", "t"⟩, ⟨"b", "t"⟩]
        [⟨"a", "b", "r"⟩] 1).entities ↔
      ∃ n, n ≤ 1 ∧ reachBy [⟨"a", "t"⟩, ⟨"b", "t"⟩] [⟨"a", "b", "r"⟩]
        (([⟨"a", "t"⟩] : List KGEntity).map KGEntity.name) n "b") :=
  (find_connected_subgraph_correct [⟨"a", "t"⟩] [⟨"a", "t"⟩, ⟨"b", "t"⟩]
    [⟨"a", "b", "r"⟩] 1 (by decide)).1 ⟨"b", "t"⟩ (by decide)

/-! ## C2: depth zero -/

theorem bfsPush_visited_mem (d : Nat) :
    ∀ (ws : List String) (s : BfsState) (v : String),
      v ∈ (bfsPush d s ws).visited ↔ v ∈ s.visited ∨ v ∈ ws := by
  intro ws
  induction ws with
  | nil => intro s v; rw [bfsPush]; simp
  | cons w ws ih =>
    intro s v
    rw [bfsPush]
    by_cases hw : w ∈ s.visited
    · rw [if_pos hw, ih]
      constructor
      · rintro (h | h)
        · exact Or.inl h
        · exact Or.inr (List.mem_cons_of_mem w h)
      · rintro (h | h)
        · exact Or.inl h
        · rcases List.mem_cons.mp h with h | h
          · exact Or.inl (h ▸ hw)
          · exact Or.inr h
    · rw [if_neg hw, ih]
      simp only [List.mem_append, List.mem_singleton, List.mem_cons]
      tauto

theorem bfsRun_zero_visited (adj : String → Option (List String)) :
    ∀ (fuel : Nat) (st : BfsState),
      (bfsRun adj 0 fuel st).visited = st.visited := by
  intro fuel
  induction fuel with
  | zero => intro st; rw [bfsRun]
  | succ fuel ih =>
    intro st
    cases hq : st.queue with
    | nil => simp only [bfsRun, hq]
    | cons front rest =>
      obtain ⟨v, k⟩ := front
      simp only [bfsRun, hq, bfsStep, if_pos (Nat.zero_le k)]
      exact ih ⟨st.visited, st.depths, rest⟩

/-- C2 counterexample: with `max_depth = 0` and two seeds joined by a
relationship, the returned relationship list is not empty — the final
filter keeps any relationship whose endpoints are both seeds. -/
theorem find_connected_subgraph_depth_zero_cex :
    (find_connected_subgraph [⟨"a", "t"⟩, ⟨"b", "t"⟩] [⟨"a", "t"⟩, ⟨"b", "t"⟩]
      [⟨"a", "b", "r"⟩] 0).relationships ≠ [] := by
  decide

/-- C2 (amended): with `max_depth = 0` the expansion returns exactly the
entities whose name is a seed name, together with the relationships whose
source and target are both seed names (no edge is traversed, but the
final relationship filter keeps seed-to-seed relationships). -/
theorem find_connected_subgraph_depth_zero (matching all_es : List KGEntity)
    (rels : List KGRel) :
    (find_connected_subgraph matching all_es rels 0).entities =
      all_es.filter (fun e => decide (e.name ∈ matching.map KGEntity.name)) ∧
    (find_connected_subgraph matching all_es rels 0).relationships =
      rels.filter (fun r => decide (r.source ∈ matching.map KGEntity.name) &&
        decide (r.target ∈ matching.map KGEntity.name)) := by
  by_cases hm : matching = []
  · subst hm
    have hfc : find_connected_subgraph [] all_es rels 0 =
        ⟨[], [], [], [], 0, 0⟩ := by
      rw [find_connected_subgraph, if_pos rfl]
    rw [hfc]
    constructor
    · symm
      apply List.filter_eq_nil_iff.mpr
      intro e _
      simp
    · symm
      apply List.filter_eq_nil_iff.mpr
      intro r _
      simp
  · have hent : (find_connected_subgraph matching all_es rels 0).entities =
        all_es.filter (fun e => decide (e.name ∈
          (bfsRun (buildAdj all_es rels) 0
            ((initState (matching.map KGEntity.name)).queue.length + all_es.length)
            (initState (matching.map KGEntity.name))).visited)) := by
      rw [find_connected_subgraph, if_neg hm]
    have hrel : (find_connected_subgraph matching all_es rels 0).relationships =
        rels.filter (fun r => decide (r.source ∈
            (bfsRun (buildAdj all_es rels) 0
              ((initState (matching.map KGEntity.name)).queue.length + all_es.length)
              (initState (matching.map KGEntity.name))).visited) &&
          decide (r.target ∈
            (bfsRun (buildAdj all_es rels) 0
              ((initState (matching.map KGEntity.name)).queue.length + all_es.length)
              (initState (matching.map KGEntity.name))).visited)) := by
      rw [find_connected_subgraph, if_neg hm]
    have hvis : ∀ v, v ∈ (bfsRun (buildAdj all_es rels) 0
        ((initState (matching.map KGEntity.name)).queue.length + all_es.length)
        (initState (matching.map KGEntity.name))).visited ↔
        v ∈ matching.map KGEntity.name := by
      intro v
      rw [bfsRun_zero_visited]
      unfold initState
      rw [bfsPush_visited_mem]
      simp
    constructor
    · rw [hent]
      apply List.filter_congr
      intro e _
      simp only [decide_eq_decide]
      exact hvis e.name
    · rw [hrel]
      apply List.filter_congr
      intro r _
      rw [decide_eq_decide.mpr (hvis r.source), decide_eq_decide.mpr (hvis r.target)]
